import Mathlib

/-
Verification of the tile-scheduling core of the Cycles renderer
(src/intern/cycles/render/tile.cpp, tile.h) and of the rank selection of the
denoise feature-transform builder (src/intern/cycles/filter/filter_transform.h).

The C++ code is shallowly embedded: machine ints are modelled as Nat (all the
quantities involved — pixel coordinates, tile counts, dividers — are
non-negative in the source) or as Int where a value can genuinely become
negative (sample counters, neighbour coordinates, the Hilbert spiral offset).
std::vector / std::list become List, in-place mutation becomes explicit state
passing.  The float arithmetic of the TILE_CENTER comparator is modelled as
exact integer arithmetic (the operands are small integers, on which float
arithmetic is exact); the float arithmetic inside the transform builder is
abstracted by an arbitrary predicate where the claim under study is
independent of the float values.  RenderBuffers pointers (per-tile auxiliary
memory) are not modelled: no claim under study observes them.
-/

namespace Cycles

/-- The C `INT_MAX` sentinel used by the scheduler for "unlimited". -/
def intMax : Nat := 2147483647

/-- `INT_MAX` as an `Int`, for the sample counters. -/
def intMaxI : Int := 2147483647

/-- Tile lifecycle states, in declaration order of the C++ enum
(`RENDER = 0, RENDERED, DENOISE, DENOISED, DONE`); the source compares
states with `<`, which is the order of `toNat` below. -/
inductive TileState where
  | RENDER
  | RENDERED
  | DENOISE
  | DENOISED
  | DONE
deriving DecidableEq, Repr

/-- Numeric value of a `TileState`, as in the C++ enum. -/
def TileState.toNat : TileState → Nat
  | .RENDER => 0
  | .RENDERED => 1
  | .DENOISE => 2
  | .DENOISED => 3
  | .DONE => 4

/-- One tile (class `Tile` of tile.h).  The `RenderBuffers *buffers` member is
not modelled (it is auxiliary memory whose contents no studied claim
observes). -/
structure Tile where
  index : Nat
  x : Nat
  y : Nat
  w : Nat
  h : Nat
  device : Nat
  tstate : TileState
deriving DecidableEq, Repr

/-- Model of a default-constructed `Tile()` (whose fields C++ leaves
uninitialized; the scheduler only reads entries it has written, so the
choice of values here is immaterial and zeros are used). -/
def defaultTile : Tile :=
  { index := 0, x := 0, y := 0, w := 0, h := 0, device := 0, tstate := TileState.RENDER }

/-- The `TileOrder` enum of tile.h. -/
inductive TileOrder where
  | TILE_CENTER
  | TILE_RIGHT_TO_LEFT
  | TILE_LEFT_TO_RIGHT
  | TILE_TOP_TO_BOTTOM
  | TILE_BOTTOM_TO_TOP
  | TILE_HILBERT_SPIRAL
deriving DecidableEq, Repr

/-- The members of `BufferParams` that the tile manager reads and writes
(width/height of the effective region, offsets and size of the full image). -/
structure BufferParams where
  width : Nat
  height : Nat
  full_x : Nat
  full_y : Nat
  full_width : Nat
  full_height : Nat
deriving DecidableEq, Repr

/-- A zero-initialized `BufferParams` (the default-constructed value used by
`reset` and by the `TileManager` constructor). -/
def BufferParams.zero : BufferParams :=
  { width := 0, height := 0, full_x := 0, full_y := 0, full_width := 0, full_height := 0 }

/-- `TileManager::State` (tile.h): the working set of the scheduler.
`global_buffers` is a non-owning pointer that no studied claim observes and
is not modelled. -/
structure RenderState where
  tiles : List Tile
  tile_stride : Nat
  buffer : BufferParams
  sample : Int
  num_samples : Int
  resolution_divider : Nat
  num_tiles : Nat
  num_rendered_tiles : Nat
  total_pixel_samples : Nat
  render_tiles : List (List Nat)
  denoise_tiles : List (List Nat)
deriving DecidableEq, Repr

/-- The zero/empty `RenderState` a fresh `TileManager` starts from (every
field is overwritten by `reset` before use). -/
def RenderState.zero : RenderState :=
  { tiles := [], tile_stride := 0, buffer := BufferParams.zero, sample := 0,
    num_samples := 0, resolution_divider := 0, num_tiles := 0,
    num_rendered_tiles := 0, total_pixel_samples := 0,
    render_tiles := [], denoise_tiles := [] }

/-- The `TileManager` object: configuration fields plus the mutable state. -/
structure TileManager where
  params : BufferParams
  state : RenderState
  num_samples : Int
  progressive : Bool
  tile_size : Nat × Nat
  tile_order : TileOrder
  start_resolution : Nat
  num_devices : Nat
  only_denoise : Bool
  preserve_tile_device : Bool
  background : Bool
  schedule_denoising : Bool
  range_start_sample : Int
  range_num_samples : Int
deriving DecidableEq, Repr

/-- The body of `get_divider`'s `while` loop (tile.cpp:125):
`while(w*h > s*s) { w = max(1,w/2); h = max(1,h/2); divider <<= 1; }`.
The loop is modelled with explicit fuel; for `start_resolution ≥ 1` the
configured fuel of `get_divider` is proved sufficient below (for
`start_resolution = 0` and `w, h ≥ 1` the C loop does not terminate). -/
def get_divider_loop : Nat → Nat → Nat → Nat → Nat → Nat
  | 0, _, _, _, divider => divider
  | fuel + 1, w, h, start_resolution, divider =>
    if start_resolution * start_resolution < w * h then
      get_divider_loop fuel (max 1 (w / 2)) (max 1 (h / 2)) start_resolution (divider * 2)
    else
      divider

/-- `get_divider` (tile.cpp:125): the preview resolution divider.  `divider`
starts at 1 and the loop runs only when `start_resolution != INT_MAX`. -/
def get_divider (w h start_resolution : Nat) : Nat :=
  if start_resolution = intMax then 1
  else get_divider_loop (w + h + 1) w h start_resolution 1

/-- `k` applications of the clamped halving `x ↦ max(1, x/2)` that
`get_divider`'s loop performs on each image dimension. -/
def shrinkDim (x : Nat) : Nat → Nat
  | 0 => x
  | k + 1 => max 1 (shrinkDim x k / 2)

/-- Squared distance (float `dot(dist, dist)` in the source, exact on these
integer operands) of a tile's centre from the image centre, used by the
`TILE_CENTER` comparator. -/
def tile_center_dist2 (center : Nat × Nat) (t : Tile) : Int :=
  let dx : Int := (center.1 : Int) - ((t.x + t.w / 2 : Nat) : Int)
  let dy : Int := (center.2 : Int) - ((t.y + t.h / 2 : Nat) : Int)
  dx * dx + dy * dy

/-- `TileComparator::operator()` (tile.cpp:34) on tile values: the strict
"comes before" test used to sort a device's queue.  The `default` label of
the C++ `switch` shares the `TILE_BOTTOM_TO_TOP` case. -/
def tileCompare (order : TileOrder) (center : Nat × Nat) (ta tb : Tile) : Bool :=
  match order with
  | TileOrder.TILE_CENTER =>
    decide (tile_center_dist2 center ta < tile_center_dist2 center tb)
  | TileOrder.TILE_LEFT_TO_RIGHT =>
    if ta.x = tb.x then decide (ta.y < tb.y) else decide (ta.x < tb.x)
  | TileOrder.TILE_RIGHT_TO_LEFT =>
    if ta.x = tb.x then decide (ta.y < tb.y) else decide (tb.x < ta.x)
  | TileOrder.TILE_TOP_TO_BOTTOM =>
    if ta.y = tb.y then decide (ta.x < tb.x) else decide (tb.y < ta.y)
  | _ =>
    if ta.y = tb.y then decide (ta.x < tb.x) else decide (ta.y < tb.y)

/-- `TileComparator` applied through the tile array, as the source does with
`tiles[a]`, `tiles[b]`. -/
def tileComparator (order : TileOrder) (center : Nat × Nat) (tiles : List Tile)
    (a b : Nat) : Bool :=
  tileCompare order center (tiles.getD a defaultTile) (tiles.getD b defaultTile)

/-- Insert `a` into `l` before the first element it is `le`-related to
(stable insertion step). -/
def insertSorted (le : Nat → Nat → Bool) (a : Nat) : List Nat → List Nat
  | [] => [a]
  | b :: l => if le a b then a :: b :: l else b :: insertSorted le a l

/-- Model of `std::list::sort(comp)` (a stable merge sort) as a stable
insertion sort on `le a b := !comp(b, a)`: for a strict-weak-order
comparator — which every `TileComparator` is — all stable sorts produce the
same list. -/
def sortList (le : Nat → Nat → Bool) : List Nat → List Nat
  | [] => []
  | a :: l => insertSorted le a (sortList le l)

/-- One iteration of the loop body of `hilbert_index_to_pos` (tile.cpp:63) at
scale `s`, on the running index `d` and accumulated position `xy`:
`rx = (d>>1)&1; ry = (d^rx)&1; if(!ry){ if(rx) xy = (s-1,s-1)-xy; swap(x,y); }
xy += r*(s,s)`. -/
def hilbert_step (s d : Nat) (xy : Nat × Nat) : Nat × Nat :=
  let rx := (d >>> 1) &&& 1
  let ry := (d ^^^ rx) &&& 1
  let xyr := if ry = 0 then (if rx = 1 then (s - 1 - xy.1, s - 1 - xy.2) else xy) else xy
  let xys := if ry = 0 then (xyr.2, xyr.1) else xyr
  (xys.1 + rx * s, xys.2 + ry * s)

/-- The `for(int s = 1; s < n; s *= 2)` loop of `hilbert_index_to_pos`,
shifting `d` right by two bits per iteration.  The `0 < s` conjunct only
serves the termination argument: the entry point always starts at `s = 1`
and doubling keeps `s` positive, so it never changes the result. -/
def hilbert_loop (n s d : Nat) (xy : Nat × Nat) : Nat × Nat :=
  if _h : 0 < s ∧ s < n then hilbert_loop n (s * 2) (d >>> 2) (hilbert_step s d xy)
  else xy
termination_by n - s
decreasing_by omega

/-- `hilbert_index_to_pos(n, d)` (tile.cpp:63): block-local position of the
`d`-th point of the Hilbert curve over an `n × n` grid (`n` a power of two). -/
def hilbert_index_to_pos (n d : Nat) : Nat × Nat :=
  hilbert_loop n 1 d (0, 0)

/-- `hilbert_loop` with its iterations made structural: `hilbertF m j d xy`
performs the loop iterations at scales `s = 2^j, 2^(j+1), …, 2^(j+m-1)`,
consuming two bits of `d` per iteration (proved equal to `hilbert_loop`
below). -/
def hilbertF : Nat → Nat → Nat → Nat × Nat → Nat × Nat
  | 0, _, _, xy => xy
  | m + 1, j, d, xy => hilbertF m (j + 1) (d >>> 2) (hilbert_step (2 ^ j) d xy)

/-- `image_w` as computed at the top of `gen_tiles`, `set_tiles` and
`return_tile`: the effective image width at the current resolution divider,
clamped below at one pixel (`max(1, params.width/resolution)`). -/
def genImageW (m : TileManager) : Nat :=
  max 1 (m.params.width / m.state.resolution_divider)

/-- `image_h` of `gen_tiles`/`set_tiles`/`return_tile`. -/
def genImageH (m : TileManager) : Nat :=
  max 1 (m.params.height / m.state.resolution_divider)

/-- `center = (image_w/2, image_h/2)` of `gen_tiles`. -/
def genCenter (m : TileManager) : Nat × Nat :=
  (genImageW m / 2, genImageH m / 2)

/-- `num_logical_devices = preserve_tile_device ? num_devices : 1`. -/
def numLogicalDevices (m : TileManager) : Nat :=
  if m.preserve_tile_device then m.num_devices else 1

/-- `num = min(image_h, num_logical_devices)`: the number of per-device
queues allocated by `gen_tiles`. -/
def genNum (m : TileManager) : Nat :=
  min (genImageH m) (numLogicalDevices m)

/-- `tile_w = (tile_size.x >= image_w) ? 1 : ceil(image_w / tile_size.x)`. -/
def genTileW (m : TileManager) : Nat :=
  if genImageW m ≤ m.tile_size.1 then 1
  else (genImageW m + m.tile_size.1 - 1) / m.tile_size.1

/-- `tile_h`, as `genTileW` but vertically. -/
def genTileH (m : TileManager) : Nat :=
  if genImageH m ≤ m.tile_size.2 then 1
  else (genImageH m + m.tile_size.2 - 1) / m.tile_size.2

/-- `tiles_per_device = (tile_w * tile_slice_h + num - 1) / num` as computed
in the non-sliced (background) pass, where the single slice spans the whole
image so that `tile_slice_h = tile_h`. -/
def tilesPerDevice (m : TileManager) : Nat :=
  (genTileW m * genTileH m + genNum m - 1) / genNum m

/-- The `Tile(idx, x, y + slice_y, w, h, device, state)` constructed in the
row/column loop of `gen_tiles` for grid cell `(ty, tx)` of a slice. -/
def mkGenTile (m : TileManager) (tile_w tile_slice_h slice_y slice_h dev ty tx : Nat) : Tile :=
  let x := tx * m.tile_size.1
  let y := ty * m.tile_size.2
  let w := if tx = tile_w - 1 then genImageW m - x else m.tile_size.1
  let h := if ty = tile_slice_h - 1 then slice_h - y else m.tile_size.2
  { index := ty * tile_w + tx, x := x, y := y + slice_y, w := w, h := h,
    device := dev,
    tstate := if m.only_denoise then TileState.DENOISE else TileState.RENDER }

/-- The iteration domain of the `for(tile_y) for(tile_x)` nest, in source
order (rows outer, columns inner). -/
def genPairs (rows cols : Nat) : List (Nat × Nat) :=
  (List.range rows).flatMap (fun ty => (List.range cols).map (fun tx => (ty, tx)))

/-- Body of the tile loop in the sliced (viewport) mode: write
`state.tiles[idx] = Tile(...)` and `tile_list->push_back(idx)` for each grid
cell, with `idx = tile_y*tile_w + tile_x` exactly as in the source. -/
def sliceWrite (mk : Nat → Nat → Tile) (tile_w : Nat) :
    List (Nat × Nat) → List Tile → List Nat → List Tile × List Nat
  | [], tiles, acc => (tiles, acc)
  | p :: rest, tiles, acc =>
    sliceWrite mk tile_w rest (tiles.set (p.1 * tile_w + p.2) (mk p.1 p.2))
      (acc ++ [p.1 * tile_w + p.2])

/-- The `for(slice)` loop of `gen_tiles` in sliced mode: per slice compute
`slice_y`, `slice_h` and `tile_slice_h`, emit the slice's tiles into queue
number `slice` (the `tile_list` iterator advances once per slice), and tag
them with `device = slice`.  The `cur_tiles`/`tiles_per_device` chunk logic
of the source is dead code here (it only runs when `!sliced`).  The first
`Nat` argument is the loop's remaining trip count (started at `slice_num`),
the second the current slice `s`. -/
def slicedLoop (m : TileManager) (tile_w slice_num : Nat) :
    Nat → Nat → List Tile → List (List Nat) → List Tile × List (List Nat)
  | 0, _, tiles, qs => (tiles, qs)
  | k + 1, s, tiles, qs =>
    let image_h := genImageH m
    let slice_y := (image_h / slice_num) * s
    let slice_h := if s = slice_num - 1 then image_h - s * (image_h / slice_num)
      else image_h / slice_num
    let tile_slice_h := if slice_h ≤ m.tile_size.2 then 1
      else (slice_h + m.tile_size.2 - 1) / m.tile_size.2
    let r := sliceWrite (mkGenTile m tile_w tile_slice_h slice_y slice_h s) tile_w
      (genPairs tile_slice_h tile_w) tiles []
    slicedLoop m tile_w slice_num k (s + 1) r.1 (qs.set s r.2)

/-- The tile loop of `gen_tiles` in non-sliced (background) mode: write each
tile (tagged with the current chunk's device), `push_back` its index on the
current queue, and when the queue reaches `tiles_per_device` entries sort it
with `TileComparator` (unless the order is `TILE_BOTTOM_TO_TOP`, which is
the generation order) and move on to the next device's queue.  A final
chunk that never fills is left behind unsorted, exactly as in the source. -/
def bgLoop (m : TileManager) (tile_w per : Nat) (mk : Nat → Nat → Nat → Tile) :
    List (Nat × Nat) → List Tile → List Nat → Nat → List Tile × List (List Nat)
  | [], tiles, cur, _ => (tiles, [cur])
  | p :: rest, tiles, cur, dev =>
    let idx := p.1 * tile_w + p.2
    let tiles' := tiles.set idx (mk dev p.1 p.2)
    let cur' := cur ++ [idx]
    if cur'.length = per then
      let sorted := if m.tile_order = TileOrder.TILE_BOTTOM_TO_TOP then cur'
        else sortList (fun a b => ! tileComparator m.tile_order (genCenter m) tiles' b a) cur'
      let r := bgLoop m tile_w per mk rest tiles' [] (dev + 1)
      (r.1, sorted :: r.2)
    else
      bgLoop m tile_w per mk rest tiles' cur' dev

/-- The four directions of the Hilbert-spiral block walk. -/
inductive SpiralDirection where
  | DIRECTION_UP
  | DIRECTION_LEFT
  | DIRECTION_DOWN
  | DIRECTION_RIGHT
deriving DecidableEq, Repr

/-- Accumulator of the Hilbert-spiral branch of `gen_tiles`: the tile array,
the per-device queues, the queue the `tile_list` iterator points at, and the
chunk counters. -/
structure GenAcc where
  tiles : List Tile
  qs : List (List Nat)
  cur_q : Nat
  cur_tiles : Nat
  cur_device : Nat
deriving DecidableEq, Repr

/-- Emission of one candidate tile position in the Hilbert-spiral branch:
tiles outside the image are skipped; an in-image tile is clipped, written at
`idx = ipos.y*tile_w + ipos.x` and pushed on the front of the current
queue; a full chunk advances the device and queue. -/
def hilbertEmitTile (m : TileManager) (image_w image_h tile_w per : Nat)
    (pos : Int × Int) (acc : GenAcc) : GenAcc :=
  if 0 ≤ pos.1 ∧ 0 ≤ pos.2 ∧ pos.1 < (image_w : Int) ∧ pos.2 < (image_h : Int) then
    let px := pos.1.toNat
    let py := pos.2.toNat
    let w := min m.tile_size.1 (image_w - px)
    let h := min m.tile_size.2 (image_h - py)
    let idx := (py / m.tile_size.2) * tile_w + px / m.tile_size.1
    let t : Tile :=
      { index := idx, x := px, y := py, w := w, h := h,
        device := acc.cur_device,
        tstate := if m.only_denoise then TileState.DENOISE else TileState.RENDER }
    let tiles := acc.tiles.set idx t
    let qs := acc.qs.set acc.cur_q (idx :: acc.qs.getD acc.cur_q [])
    if acc.cur_tiles + 1 = per then
      { tiles := tiles, qs := qs, cur_q := acc.cur_q + 1, cur_tiles := 0,
        cur_device := acc.cur_device + 1 }
    else
      { tiles := tiles, qs := qs, cur_q := acc.cur_q,
        cur_tiles := acc.cur_tiles + 1, cur_device := acc.cur_device }
  else acc

/-- Emission of all `hilbert_size²` tiles of one spiral block, rotated
according to the current and previous spiral direction. -/
def hilbertBlockEmit (m : TileManager) (image_w image_h tile_w per hilbert_size : Nat)
    (block_size : Nat × Nat) (offset : Int × Int) (block : Nat × Nat)
    (prev_dir dir : SpiralDirection) (acc : GenAcc) : GenAcc :=
  (List.range (hilbert_size * hilbert_size)).foldl (fun acc hilbert_index =>
    let hp := hilbert_index_to_pos hilbert_size hilbert_index
    let tile : Nat × Nat :=
      if prev_dir = SpiralDirection.DIRECTION_UP ∧ dir = SpiralDirection.DIRECTION_UP then
        (hp.2, hp.1)
      else if dir = SpiralDirection.DIRECTION_LEFT ∨ prev_dir = SpiralDirection.DIRECTION_LEFT then
        hp
      else if dir = SpiralDirection.DIRECTION_DOWN then
        (hilbert_size - 1 - hp.2, hilbert_size - 1 - hp.1)
      else
        (hilbert_size - 1 - hp.1, hilbert_size - 1 - hp.2)
    let pos : Int × Int :=
      (((block.1 * block_size.1 + tile.1 * m.tile_size.1 : Nat) : Int) + offset.1,
       ((block.2 * block_size.2 + tile.2 * m.tile_size.2 : Nat) : Int) + offset.2)
    hilbertEmitTile m image_w image_h tile_w per pos acc) acc

/-- The square-spiral walk over blocks (`for(int i = 0;;)` of the Hilbert
branch): emit the current block, stop at the centre block, otherwise advance
`block`/`dir`/`i` exactly as the `switch` does.  The walk visits at most
`n²` blocks, which bounds the fuel used by `gen_tiles`. -/
def spiralLoop (m : TileManager) (image_w image_h tile_w per hilbert_size n : Nat)
    (block_size : Nat × Nat) (offset : Int × Int) :
    Nat → Nat × Nat → SpiralDirection → SpiralDirection → Nat → GenAcc → GenAcc
  | 0, _, _, _, _, acc => acc
  | fuel + 1, block, prev_dir, dir, i, acc =>
    let acc := hilbertBlockEmit m image_w image_h tile_w per hilbert_size block_size offset
      block prev_dir dir acc
    if block.1 = (n - 1) / 2 ∧ block.2 = (n - 1) / 2 then acc
    else
      match dir with
      | SpiralDirection.DIRECTION_UP =>
        let block' := (block.1, block.2 + 1)
        let dir' := if block'.2 = n - i - 1 then SpiralDirection.DIRECTION_LEFT else dir
        spiralLoop m image_w image_h tile_w per hilbert_size n block_size offset
          fuel block' dir dir' i acc
      | SpiralDirection.DIRECTION_LEFT =>
        let block' := (block.1 + 1, block.2)
        let dir' := if block'.1 = n - i - 1 then SpiralDirection.DIRECTION_DOWN else dir
        spiralLoop m image_w image_h tile_w per hilbert_size n block_size offset
          fuel block' dir dir' i acc
      | SpiralDirection.DIRECTION_DOWN =>
        let block' := (block.1, block.2 - 1)
        let dir' := if block'.2 = i then SpiralDirection.DIRECTION_RIGHT else dir
        spiralLoop m image_w image_h tile_w per hilbert_size n block_size offset
          fuel block' dir dir' i acc
      | SpiralDirection.DIRECTION_RIGHT =>
        let block' := (block.1 - 1, block.2)
        if block'.1 = i + 1 then
          spiralLoop m image_w image_h tile_w per hilbert_size n block_size offset
            fuel block' dir SpiralDirection.DIRECTION_UP (i + 1) acc
        else
          spiralLoop m image_w image_h tile_w per hilbert_size n block_size offset
            fuel block' dir dir i acc

/-- The `TILE_HILBERT_SPIRAL` branch of `gen_tiles`.  The spiral offset is
computed with C truncating integer division (`Int.tdiv`). -/
def genTilesHilbert (m : TileManager) (image_w image_h tile_w tile_h num : Nat)
    (tiles0 : List Tile) (qs0 : List (List Nat)) : List Tile × List (List Nat) :=
  let hilbert_size := if max m.tile_size.1 m.tile_size.2 ≤ 12 then 8 else 4
  let per := (tile_w * tile_h + num - 1) / num
  let block_size : Nat × Nat := (m.tile_size.1 * hilbert_size, m.tile_size.2 * hilbert_size)
  let blocks_x := if image_w ≤ block_size.1 then 1
    else (image_w + block_size.1 - 1) / block_size.1
  let blocks_y := if image_h ≤ block_size.2 then 1
    else (image_h + block_size.2 - 1) / block_size.2
  let n := max blocks_x blocks_y ||| 1
  let off1 : Int × Int :=
    (Int.tdiv ((image_w : Int) - ((n * block_size.1 : Nat) : Int)) 2,
     Int.tdiv ((image_h : Int) - ((n * block_size.2 : Nat) : Int)) 2)
  let offset : Int × Int :=
    (Int.tdiv off1.1 (m.tile_size.1 : Int) * (m.tile_size.1 : Int),
     Int.tdiv off1.2 (m.tile_size.2 : Int) * (m.tile_size.2 : Int))
  let acc := spiralLoop m image_w image_h tile_w per hilbert_size n block_size offset
    (n * n + 1) (0, 0) SpiralDirection.DIRECTION_UP SpiralDirection.DIRECTION_UP 0
    { tiles := tiles0, qs := qs0, cur_q := 0, cur_tiles := 0, cur_device := 0 }
  (acc.tiles, acc.qs)

/-- `TileManager::gen_tiles(sliced)` (tile.cpp:189): allocate the
`tile_w*tile_h` tile array and `num` queues, fill them along the branch
selected by the tile order and `sliced`, and return the total tile count
together with the new scheduler state.  Depending on `only_denoise` the
generated queues are the render queues or the denoise queues; the other
vector keeps its `num` empty lists. -/
def gen_tiles (m : TileManager) (sliced : Bool) : Nat × RenderState :=
  let image_w := genImageW m
  let image_h := genImageH m
  let num := genNum m
  let slice_num := if sliced then num else 1
  let tile_w := genTileW m
  let tile_h := genTileH m
  let tiles0 : List Tile := List.replicate (tile_w * tile_h) defaultTile
  let qs0 : List (List Nat) := List.replicate num []
  let r : List Tile × List (List Nat) :=
    if m.tile_order = TileOrder.TILE_HILBERT_SPIRAL then
      genTilesHilbert m image_w image_h tile_w tile_h num tiles0 qs0
    else if sliced then
      slicedLoop m tile_w slice_num slice_num 0 tiles0 qs0
    else
      let per := (tile_w * tile_h + num - 1) / num
      let r' := bgLoop m tile_w per (fun dev ty tx => mkGenTile m tile_w tile_h 0 image_h dev ty tx)
        (genPairs tile_h tile_w) tiles0 [] 0
      (r'.1, (List.range num).map (fun d => r'.2.getD d []))
  (tile_w * tile_h,
   { m.state with
      tiles := r.1,
      tile_stride := tile_w,
      render_tiles := if m.only_denoise then qs0 else r.2,
      denoise_tiles := if m.only_denoise then r.2 else qs0 })

/-- `TileManager::set_tiles` (tile.cpp:353): regenerate the tiles
(`sliced = !background`) and update `state.num_tiles` and `state.buffer`. -/
def set_tiles (m : TileManager) : TileManager :=
  let resolution := m.state.resolution_divider
  let r := gen_tiles m (! m.background)
  { m with state :=
    { r.2 with
       num_tiles := r.1,
       buffer :=
        { width := genImageW m, height := genImageH m,
          full_x := m.params.full_x / resolution,
          full_y := m.params.full_y / resolution,
          full_width := max 1 (m.params.full_width / resolution),
          full_height := max 1 (m.params.full_height / resolution) } } }

/-- `TileManager::get_num_effective_samples` (tile.cpp:530). -/
def get_num_effective_samples (m : TileManager) : Int :=
  if m.only_denoise then 1
  else if m.range_num_samples = -1 then m.num_samples else m.range_num_samples

/-- The preview-accounting loop of `set_samples`:
`while(divider > 1) { pixel_samples += max(1,w/divider)*max(1,h/divider);
divider >>= 1; }`, with the divider itself as (more than sufficient) fuel
since it at least halves every iteration. -/
def preview_pixel_samples_loop : Nat → Nat → Nat → Nat → Nat
  | 0, _, _, _ => 0
  | fuel + 1, w, h, divider =>
    if 1 < divider then
      max 1 (w / divider) * max 1 (h / divider)
        + preview_pixel_samples_loop fuel w h (divider / 2)
    else 0

/-- The accumulated preview pixel samples of `set_samples`. -/
def preview_pixel_samples (w h divider : Nat) : Nat :=
  preview_pixel_samples_loop divider w h divider

/-- `TileManager::set_samples` (tile.cpp:157): store the sample count and
recompute `state.total_pixel_samples` (0 for the unlimited sentinel). -/
def set_samples (m : TileManager) (num_samples_ : Int) : TileManager :=
  let m1 := { m with num_samples := num_samples_ }
  if m1.num_samples = intMaxI then
    { m1 with state := { m1.state with total_pixel_samples := 0 } }
  else if m1.only_denoise then
    { m1 with state := { m1.state with
        total_pixel_samples := m1.params.width * m1.params.height } }
  else
    let divider := get_divider m1.params.width m1.params.height m1.start_resolution / 2
    let pixel_samples := preview_pixel_samples m1.params.width m1.params.height divider
    let total := pixel_samples
      + (get_num_effective_samples m1).toNat * m1.params.width * m1.params.height
    let total := if m1.schedule_denoising then
        total + m1.params.width * m1.params.height
      else total
    { m1 with state := { m1.state with total_pixel_samples := total } }

/-- `TileManager::reset` (tile.cpp:139): install the new buffer parameters,
recompute the sample accounting, and wipe the scheduler state, setting
`sample = range_start_sample - 1` and the initial resolution divider. -/
def reset (m : TileManager) (params_ : BufferParams) (num_samples_ : Int) : TileManager :=
  let m2 := set_samples { m with params := params_ } num_samples_
  { m2 with state := { m2.state with
      buffer := BufferParams.zero,
      sample := m2.range_start_sample - 1,
      num_tiles := 0,
      num_rendered_tiles := 0,
      num_samples := 0,
      resolution_divider := get_divider params_.width params_.height m2.start_resolution,
      render_tiles := [],
      denoise_tiles := [],
      tiles := [] } }

/-- The `TileManager` constructor (tile.cpp:90): store the configuration,
default `schedule_denoising = false` and sample range `(0, -1)`, then
`reset(BufferParams(), 0)`. -/
def TileManager.build (progressive_ : Bool) (num_samples_ : Int) (tile_size_ : Nat × Nat)
    (start_resolution_ : Nat) (preserve_tile_device_ background_ : Bool)
    (tile_order_ : TileOrder) (num_devices_ : Nat) (only_denoise_ : Bool) : TileManager :=
  reset
    { params := BufferParams.zero, state := RenderState.zero,
      num_samples := num_samples_, progressive := progressive_,
      tile_size := tile_size_, tile_order := tile_order_,
      start_resolution := start_resolution_, num_devices := num_devices_,
      only_denoise := only_denoise_, preserve_tile_device := preserve_tile_device_,
      background := background_, schedule_denoising := false,
      range_start_sample := 0, range_num_samples := -1 }
    BufferParams.zero 0

/-- `TileManager::next_tile(tile, device)` (tile.cpp:467), returning the
index of the dispatched tile (the source hands out `&state.tiles[idx]`, so
equal indices mean the same tile reference).  A missing logical queue
returns `false` (here `none`) without touching the state; otherwise the
denoise queue is preferred over the render queue. -/
def next_tile (m : TileManager) (device : Nat) : Option Nat × TileManager :=
  let logical_device := if m.preserve_tile_device then device else 0
  if m.state.render_tiles.length ≤ logical_device then (none, m)
  else
    match m.state.denoise_tiles.getD logical_device [] with
    | idx :: rest =>
      (some idx, { m with state := { m.state with
        denoise_tiles := m.state.denoise_tiles.set logical_device rest,
        num_rendered_tiles := if m.only_denoise then m.state.num_rendered_tiles + 1
          else m.state.num_rendered_tiles } })
    | [] =>
      match m.state.render_tiles.getD logical_device [] with
      | [] => (none, m)
      | idx :: rest =>
        (some idx, { m with state := { m.state with
          render_tiles := m.state.render_tiles.set logical_device rest,
          num_rendered_tiles := m.state.num_rendered_tiles + 1 } })

/-- The `end_sample` local of `TileManager::done`. -/
def endSample (m : TileManager) : Int :=
  if m.range_num_samples = -1 then m.num_samples
  else m.range_start_sample + m.range_num_samples

/-- `TileManager::done` (tile.cpp:493). -/
def done (m : TileManager) : Bool :=
  decide (m.state.resolution_divider = 1)
    && decide (endSample m ≤ m.state.sample + m.state.num_samples)

/-- `TileManager::next` (tile.cpp:502): advance to the next rendering phase,
regenerating the tiles; returns `false` exactly when `done()`. -/
def next (m : TileManager) : Bool × TileManager :=
  if done m then (false, m)
  else if m.progressive = true ∧ 1 < m.state.resolution_divider then
    (true, set_tiles { m with state := { m.state with
      sample := 0,
      resolution_divider := m.state.resolution_divider / 2,
      num_samples := 1 } })
  else
    (true, set_tiles { m with state := { m.state with
      sample := m.state.sample + 1,
      num_samples := if m.progressive then 1
        else if m.range_num_samples = -1 then m.num_samples
        else m.range_num_samples,
      resolution_divider := 1 } })

/-- Iterate `next`, keeping the manager state after each phase change. -/
def nextIter (m : TileManager) : Nat → TileManager
  | 0 => m
  | k + 1 => (next (nextIter m k)).2

/-- The rank-selection loop of `kernel_filter_construct_transform`
(filter_transform.h:82).  `*rank` starts at 0; for `i = 0 .. F-1` the loop
first breaks when `i >= 2` and the branch's float stopping condition holds
(`reduced_energy >= threshold_energy` for `pca_threshold > 0`,
`sqrtf(s) < -pca_threshold` otherwise), and otherwise increments `*rank`.
The stopping condition reads only float state accumulated over previous
iterations, so it is abstracted as an arbitrary predicate `cond` of the
iteration index; the claim under study holds for every such predicate. -/
def transform_rank_loop (cond : Nat → Bool) (F i rank : Nat) : Nat :=
  if i < F then
    if 2 ≤ i ∧ cond i = true then rank
    else transform_rank_loop cond F (i + 1) (rank + 1)
  else rank
termination_by F - i
decreasing_by omega

/-- The `rank` output of `kernel_filter_construct_transform` with feature
count `F` (`DENOISE_FEATURES`) and abstracted stopping condition `cond`. -/
def kernel_filter_construct_transform_rank (F : Nat) (cond : Nat → Bool) : Nat :=
  transform_rank_loop cond F 0 0

/-- Viewport configuration of claims C1 and C2 (spec scenario 3): two
devices with preserved tile-device assignment, a 100×40 effective image,
32×32 tiles, resolution divider 1 (staging disabled), after `set_tiles`. -/
def mgrViewport2Dev : TileManager :=
  set_tiles (reset
    (TileManager.build false 1 (32, 32) intMax true false
      TileOrder.TILE_BOTTOM_TO_TOP 2 false)
    { width := 100, height := 40, full_x := 0, full_y := 0,
      full_width := 100, full_height := 40 } 1)

/-- Zero-sized-region configuration of claim C5: `params.width = height = 0`,
32×32 tiles, background mode, after `reset` (before `set_tiles`). -/
def mgrEmptyRegion : TileManager :=
  reset
    (TileManager.build false 1 (32, 32) intMax true true
      TileOrder.TILE_BOTTOM_TO_TOP 1 false)
    { width := 0, height := 0, full_x := 0, full_y := 0,
      full_width := 0, full_height := 0 } 1

/-- A freshly constructed manager (no `set_tiles` yet, so no per-device
queues exist), used to witness claim C10. -/
def mgrFresh : TileManager :=
  TileManager.build false 0 (64, 64) intMax true true TileOrder.TILE_CENTER 1 false

/-- The projection of a tile to the fields the queue comparator reads
(`x`, `y`, `w`, `h`). -/
def tileGeom (t : Tile) : Nat × Nat × Nat × Nat :=
  (t.x, t.y, t.w, t.h)

/-- Reference tile of grid index `idx` in the background (single-slice)
pass: the entry `gen_tiles` writes at `idx` has this geometry, whichever
chunk device it carries. -/
def bgPure (m : TileManager) (idx : Nat) : Tile :=
  mkGenTile m (genTileW m) (genTileH m) 0 (genImageH m) 0
    (idx / genTileW m) (idx % genTileW m)

/-- The amended claim C4 for one device `d`: a render queue filled to
`tiles_per_device` is sorted by the comparator of the configured order, a
`TILE_BOTTOM_TO_TOP` queue is sorted as generated, and a final partial
chunk is left in bottom-to-top generation order (ascending grid index). -/
def sortedQueueSpec (m : TileManager) (d : Nat) : Prop :=
  let r := gen_tiles m false
  let q := r.2.render_tiles.getD d []
  (q.length = tilesPerDevice m →
    q.Pairwise (fun a b => tileComparator m.tile_order (genCenter m) r.2.tiles b a = false))
    ∧ (m.tile_order = TileOrder.TILE_BOTTOM_TO_TOP →
      q.Pairwise (fun a b => tileComparator m.tile_order (genCenter m) r.2.tiles b a = false))
    ∧ (q.length ≠ tilesPerDevice m → q.Pairwise (· < ·))

/-- Background configuration of claim C4's counterexample: a 160×32 image
with 32×32 tiles (a 5×1 grid), two devices, `TILE_RIGHT_TO_LEFT`, after
`reset`: `tiles_per_device = 3`, so device 1's chunk `[3, 4]` never fills
and is never sorted. -/
def mgrBgPartial : TileManager :=
  reset
    (TileManager.build false 1 (32, 32) intMax true true
      TileOrder.TILE_RIGHT_TO_LEFT 2 false)
    { width := 160, height := 32, full_x := 0, full_y := 0,
      full_width := 160, full_height := 32 } 1

/-- `mgrBgPartial` after `set_tiles`. -/
def mgrBgPartialTiles : TileManager :=
  set_tiles mgrBgPartial

/-- Progressive-staging configuration of claim C7 (spec scenario 5): a
512×512 image with `start_resolution = 64`, `progressive`, `num_samples = N`,
one device, after `reset`. -/
def mgrProgressive (N : Nat) : TileManager :=
  reset
    (TileManager.build true (N : Int) (64, 64) 64 true true
      TileOrder.TILE_BOTTOM_TO_TOP 1 false)
    { width := 512, height := 512, full_x := 0, full_y := 0,
      full_width := 512, full_height := 512 } (N : Int)

/-- The sample/divider summary of a rendering phase in the progressive-
staging run: current divider, sample index and per-phase sample count,
together with the configuration facts `next` consults. -/
@[reducible] def phaseState (m : TileManager) (N div : Nat) (sample ns : Int) : Prop :=
  m.state.resolution_divider = div ∧ m.state.sample = sample
    ∧ m.state.num_samples = ns ∧ m.progressive = true
    ∧ m.num_samples = (N : Int) ∧ m.range_num_samples = -1
    ∧ m.range_start_sample = 0

/-- The claimed shape (as amended) of the whole progressive run with `N`
samples: divider 8 after `reset`, then phases at dividers 4 and 2 with one
sample each, then `N` one-sample phases at divider 1 (samples `0 .. N-1`),
and `next()` returning true for the `N + 2` phases and false afterwards. -/
def progressiveSpec (N : Nat) : Prop :=
  (mgrProgressive N).state.resolution_divider = 8
    ∧ (∀ k, k < N + 2 → (next (nextIter (mgrProgressive N) k)).1 = true)
    ∧ (nextIter (mgrProgressive N) 1).state.resolution_divider = 4
    ∧ (nextIter (mgrProgressive N) 1).state.sample = 0
    ∧ (nextIter (mgrProgressive N) 1).state.num_samples = 1
    ∧ (nextIter (mgrProgressive N) 2).state.resolution_divider = 2
    ∧ (nextIter (mgrProgressive N) 2).state.sample = 0
    ∧ (nextIter (mgrProgressive N) 2).state.num_samples = 1
    ∧ (∀ j, j < N →
        (nextIter (mgrProgressive N) (3 + j)).state.resolution_divider = 1
          ∧ (nextIter (mgrProgressive N) (3 + j)).state.sample = (j : Int)
          ∧ (nextIter (mgrProgressive N) (3 + j)).state.num_samples = 1)
    ∧ (next (nextIter (mgrProgressive N) (N + 2))).1 = false

/- ===================== theorems ===================== -/

/-- Unfolding equation of `transform_rank_loop` (the well-founded recursion
makes the automatic equations conditional; this is the plain one). -/
theorem transform_rank_loop_eq (cond : Nat → Bool) (F i rank : Nat) :
    transform_rank_loop cond F i rank =
      if i < F then
        if 2 ≤ i ∧ cond i = true then rank
        else transform_rank_loop cond F (i + 1) (rank + 1)
      else rank := by
  rw [transform_rank_loop]

/-- The rank loop adds at most the number of remaining iterations. -/
theorem transform_rank_loop_le (cond : Nat → Bool) :
    ∀ fuel F i rank, F - i ≤ fuel →
      transform_rank_loop cond F i rank ≤ rank + (F - i) := by
  intro fuel
  induction fuel with
  | zero =>
    intro F i rank h
    rw [transform_rank_loop_eq]
    have hFi : ¬ i < F := by omega
    simp [hFi]
  | succ fuel ih =>
    intro F i rank h
    rw [transform_rank_loop_eq]
    by_cases hFi : i < F
    · rw [if_pos hFi]
      by_cases hstop : 2 ≤ i ∧ cond i = true
      · rw [if_pos hstop]; omega
      · rw [if_neg hstop]
        have := ih F (i + 1) (rank + 1) (by omega)
        omega
    · rw [if_neg hFi]; omega

/-- The rank loop never decreases the accumulated rank. -/
theorem transform_rank_loop_ge (cond : Nat → Bool) :
    ∀ fuel F i rank, F - i ≤ fuel →
      rank ≤ transform_rank_loop cond F i rank := by
  intro fuel
  induction fuel with
  | zero =>
    intro F i rank h
    rw [transform_rank_loop_eq]
    have hFi : ¬ i < F := by omega
    simp [hFi]
  | succ fuel ih =>
    intro F i rank h
    rw [transform_rank_loop_eq]
    by_cases hFi : i < F
    · rw [if_pos hFi]
      by_cases hstop : 2 ≤ i ∧ cond i = true
      · rw [if_pos hstop]
      · rw [if_neg hstop]
        have := ih F (i + 1) (rank + 1) (by omega)
        omega
    · rw [if_neg hFi]

/-- The first two iterations (`i = 0, 1`) can never break. -/
theorem transform_rank_loop_first_two (cond : Nat → Bool) (F : Nat) (hF : 2 ≤ F) :
    transform_rank_loop cond F 0 0 = transform_rank_loop cond F 2 2 := by
  rw [transform_rank_loop_eq]
  rw [if_pos (show 0 < F by omega)]
  rw [if_neg (show ¬ (2 ≤ 0 ∧ cond 0 = true) by omega)]
  rw [transform_rank_loop_eq]
  rw [if_pos (show 1 < F by omega)]
  rw [if_neg (show ¬ (2 ≤ 1 ∧ cond 1 = true) by omega)]

/-- Claim C8: for every invocation of `kernel_filter_construct_transform`
(any buffer contents and any `pca_threshold`, abstracted as an arbitrary
per-iteration stopping predicate `cond`), the returned rank satisfies
`2 ≤ rank ≤ F`, given the compile-time feature count `F = DENOISE_FEATURES
≥ 2`. -/
theorem claim_C8_rank_bounds (F : Nat) (cond : Nat → Bool) (hF : 2 ≤ F) :
    2 ≤ kernel_filter_construct_transform_rank F cond
      ∧ kernel_filter_construct_transform_rank F cond ≤ F := by
  unfold kernel_filter_construct_transform_rank
  rw [transform_rank_loop_first_two cond F hF]
  constructor
  · exact transform_rank_loop_ge cond (F - 2) F 2 2 (by omega)
  · have := transform_rank_loop_le cond (F - 2) F 2 2 (by omega)
    omega

/-- Witness for claim C8 at the default feature count `DENOISE_FEATURES =
10` and the always-stopping predicate. -/
theorem claim_C8_witness :
    2 ≤ 10
      ∧ (2 ≤ kernel_filter_construct_transform_rank 10 (fun _ => true)
          ∧ kernel_filter_construct_transform_rank 10 (fun _ => true) ≤ 10) :=
  ⟨by decide, claim_C8_rank_bounds 10 (fun _ => true) (by decide)⟩

/-- Claim C10: when the logical device index (the physical id if
`preserve_tile_device`, else 0) is not smaller than the number of per-device
queues, `next_tile` returns `false` (`none`) and leaves the manager — tiles,
queues and counters — unchanged. -/
theorem claim_C10_next_tile_no_queue (m : TileManager) (device : Nat)
    (h : m.state.render_tiles.length ≤ (if m.preserve_tile_device then device else 0)) :
    next_tile m device = (none, m) := by
  simp only [next_tile]
  rw [if_pos h]

/-- Witness for claim C10: a freshly constructed manager has no queues, so
any device id is refused with the state unchanged. -/
theorem claim_C10_witness :
    (mgrFresh.state.render_tiles.length ≤ (if mgrFresh.preserve_tile_device then 3 else 0))
      ∧ next_tile mgrFresh 3 = (none, mgrFresh) :=
  ⟨by decide, claim_C10_next_tile_no_queue mgrFresh 3 (by decide)⟩

/-- Claim C1 (code bug): in the two-device viewport configuration the sliced
`gen_tiles` computes `idx = tile_y*tile_w + tile_x` locally per slice, so
slice 1 overwrites slice 0's entries of `state.tiles`; the first tile
`next_tile` hands device 0 is `state.tiles[0]`, which by then carries
`y = 20` (and `device = 1`) — every tile referenced by device 0's queue has
`y ≥ 20`, contradicting the claimed `y < 20`. -/
theorem claim_C1_slice_overwrite :
    (next_tile mgrViewport2Dev 0).1 = some 0
      ∧ (mgrViewport2Dev.state.tiles.getD 0 defaultTile).y = 20
      ∧ (mgrViewport2Dev.state.tiles.getD 0 defaultTile).device = 1
      ∧ ¬ ((mgrViewport2Dev.state.tiles.getD 0 defaultTile).y < 20)
      ∧ ((mgrViewport2Dev.state.render_tiles.getD 0 []).all
          (fun i => decide (20 ≤ (mgrViewport2Dev.state.tiles.getD i defaultTile).y))) = true := by
  decide

/-- Claim C2 (code bug): in the same configuration both devices' queues hold
the indices 0..3, so the very first `next_tile` calls of device 0 and of
device 1 both dispatch `state.tiles[0]` — the same tile is handed out twice
within one generation phase. -/
theorem claim_C2_duplicate_dispatch :
    (next_tile mgrViewport2Dev 0).1 = some 0
      ∧ (next_tile (next_tile mgrViewport2Dev 0).2 1).1 = some 0 := by
  decide

/-- Counterexample to claim C5: with a zero-sized effective region the
dimensions are clamped to one pixel, and `set_tiles` yields one tile, not
zero. -/
theorem claim_C5_counterexample :
    (set_tiles mgrEmptyRegion).state.num_tiles = 1
      ∧ ¬ ((set_tiles mgrEmptyRegion).state.num_tiles = 0) := by
  decide

/-- `tile_w ≥ 1` whenever the horizontal tile size is positive. -/
theorem genTileW_pos (m : TileManager) (h : 1 ≤ m.tile_size.1) : 1 ≤ genTileW m := by
  unfold genTileW
  split
  · exact le_refl 1
  · rw [Nat.le_div_iff_mul_le (by omega)]
    have h1 : 1 ≤ genImageW m := Nat.le_max_left 1 _
    omega

/-- `tile_h ≥ 1` whenever the vertical tile size is positive. -/
theorem genTileH_pos (m : TileManager) (h : 1 ≤ m.tile_size.2) : 1 ≤ genTileH m := by
  unfold genTileH
  split
  · exact le_refl 1
  · rw [Nat.le_div_iff_mul_le (by omega)]
    have h1 : 1 ≤ genImageH m := Nat.le_max_left 1 _
    omega

/-- Claim C5 as amended: a zero-sized effective region is clamped to one
pixel per dimension, so `set_tiles` yields at least one tile (for any
positive tile size) — never zero. -/
theorem claim_C5_amended (m : TileManager) (h1 : 1 ≤ m.tile_size.1)
    (h2 : 1 ≤ m.tile_size.2) (_h0 : m.params.width = 0 ∨ m.params.height = 0) :
    1 ≤ (set_tiles m).state.num_tiles := by
  have hn : (set_tiles m).state.num_tiles = genTileW m * genTileH m := rfl
  rw [hn]
  exact Nat.mul_pos (genTileW_pos m h1) (genTileH_pos m h2)

/-- Witness for the amended claim C5 at the zero-sized configuration. -/
theorem claim_C5_witness :
    (1 ≤ mgrEmptyRegion.tile_size.1)
      ∧ (mgrEmptyRegion.params.width = 0 ∨ mgrEmptyRegion.params.height = 0)
      ∧ 1 ≤ (set_tiles mgrEmptyRegion).state.num_tiles :=
  ⟨by decide, by decide,
    claim_C5_amended mgrEmptyRegion (by decide) (by decide) (by decide)⟩

/-- Unfolding the iterated clamped halving from the bottom. -/
theorem shrinkDim_succ_shift (x k : Nat) :
    shrinkDim x (k + 1) = shrinkDim (max 1 (x / 2)) k := by
  induction k with
  | zero => rfl
  | succ k ih =>
    show max 1 (shrinkDim x (k + 1) / 2) = _
    rw [ih]
    rfl

/-- Enough clamped halvings reduce any dimension to exactly one. -/
theorem shrinkDim_eq_one : ∀ k x, 1 ≤ k → x < 2 ^ k → shrinkDim x k = 1 := by
  intro k
  induction k with
  | zero => intro x h; omega
  | succ k ih =>
    intro x _ hx
    by_cases hk : k = 0
    · subst hk
      show max 1 (shrinkDim x 0 / 2) = 1
      show max 1 (x / 2) = 1
      have : x < 2 := by simpa using hx
      omega
    · rw [shrinkDim_succ_shift]
      apply ih _ (by omega)
      have h2 : x / 2 < 2 ^ k := by
        rw [Nat.div_lt_iff_lt_mul (by omega)]
        calc x < 2 ^ (k + 1) := hx
        _ = 2 ^ k * 2 := by rw [pow_succ]
      have h1 : 1 < 2 ^ k := Nat.one_lt_two_pow hk
      omega

/-- The divider loop halts after exactly the least number `k` of clamped
halvings that brings the pixel count under `s²`, doubling the divider `k`
times. -/
theorem get_divider_loop_eq :
    ∀ k w h s div fuel, k < fuel →
      shrinkDim w k * shrinkDim h k ≤ s * s →
      (∀ j, j < k → s * s < shrinkDim w j * shrinkDim h j) →
      get_divider_loop fuel w h s div = div * 2 ^ k := by
  intro k
  induction k with
  | zero =>
    intro w h s div fuel hfuel hk _
    obtain ⟨f, rfl⟩ : ∃ f, fuel = f + 1 := ⟨fuel - 1, by omega⟩
    show (if s * s < w * h then _ else div) = div * 2 ^ 0
    rw [if_neg (by exact Nat.not_lt.mpr hk)]
    simp
  | succ k ih =>
    intro w h s div fuel hfuel hk hleast
    obtain ⟨f, rfl⟩ : ∃ f, fuel = f + 1 := ⟨fuel - 1, by omega⟩
    have h0 : s * s < w * h := hleast 0 (by omega)
    show (if s * s < w * h then get_divider_loop f (max 1 (w / 2)) (max 1 (h / 2)) s (div * 2)
      else div) = div * 2 ^ (k + 1)
    rw [if_pos h0]
    rw [ih (max 1 (w / 2)) (max 1 (h / 2)) s (div * 2) f (by omega)
      (by rw [← shrinkDim_succ_shift, ← shrinkDim_succ_shift]; exact hk)
      (by
        intro j hj
        rw [← shrinkDim_succ_shift, ← shrinkDim_succ_shift]
        exact hleast (j + 1) (by omega))]
    rw [pow_succ]
    ring

/-- `set_samples` never changes the configured start resolution. -/
theorem set_samples_start_resolution (m : TileManager) (n : Int) :
    (set_samples m n).start_resolution = m.start_resolution := by
  unfold set_samples
  dsimp only
  split
  · rfl
  · split
    · rfl
    · rfl

/-- `reset` installs `get_divider(width, height, start_resolution)` as the
resolution divider. -/
theorem reset_resolution_divider (m : TileManager) (p : BufferParams) (n : Int) :
    (reset m p n).state.resolution_divider = get_divider p.width p.height m.start_resolution := by
  show get_divider p.width p.height (set_samples { m with params := p } n).start_resolution
    = get_divider p.width p.height m.start_resolution
  rw [set_samples_start_resolution]

/-- Counterexample to claim C6: for `w = 1, h = 100, s = 1` the claim's
formula — the smallest power of two `2^k` with `(w>>k)*(h>>k) ≤ s²` — gives
`2^1 = 2` (since `(1>>1)*(100>>1) = 0` while `(1>>0)*(100>>0) = 100 > 1`),
but the code clamps each halved dimension at 1 and yields 64. -/
theorem claim_C6_counterexample :
    get_divider 1 100 1 = 64
      ∧ (1 >>> 1) * (100 >>> 1) ≤ 1 * 1
      ∧ ¬ ((1 >>> 0) * (100 >>> 0) ≤ 1 * 1)
      ∧ (64 : Nat) ≠ 2 ^ 1 := by
  decide

/-- Claim C6 as amended: `reset` sets
`resolution_divider = get_divider(width, height, start_resolution)`; for the
sentinel `start_resolution = INT_MAX` that is 1, and for every non-sentinel
`s ≥ 1` it is `2^k` for the smallest `k` such that the `k`-times halved
dimensions — with each halving clamped below at one, as the loop does —
have product at most `s²`.  (For `s = 0` and a non-empty image the C loop
does not terminate, so `s ≥ 1` is assumed.) -/
theorem claim_C6_amended :
    (∀ (m : TileManager) (p : BufferParams) (n : Int),
      (reset m p n).state.resolution_divider = get_divider p.width p.height m.start_resolution)
    ∧ (∀ w h : Nat, get_divider w h intMax = 1)
    ∧ (∀ w h s k : Nat, s ≠ intMax → 1 ≤ s →
        shrinkDim w k * shrinkDim h k ≤ s * s →
        (∀ j, j < k → s * s < shrinkDim w j * shrinkDim h j) →
        get_divider w h s = 2 ^ k) := by
  refine ⟨reset_resolution_divider, ?_, ?_⟩
  · intro w h
    unfold get_divider
    rw [if_pos rfl]
  · intro w h s k hs hs1 hk hleast
    unfold get_divider
    rw [if_neg hs]
    have hkfuel : k < w + h + 1 := by
      by_cases hwh : w * h = 0
      · have hk0 : k = 0 := by
          by_contra hne
          have := hleast 0 (by omega)
          simp only [shrinkDim] at this
          omega
        omega
      · have hw1 : 1 ≤ w := by
          rcases Nat.eq_zero_or_pos w with h0 | h0
          · exfalso; apply hwh; rw [h0]; ring
          · exact h0
        have hh1 : 1 ≤ h := by
          rcases Nat.eq_zero_or_pos h with h0 | h0
          · exfalso; apply hwh; rw [h0]; ring
          · exact h0
        set K := max w h + 1 with hK
        have hwK : shrinkDim w K = 1 := by
          apply shrinkDim_eq_one K w (by omega)
          calc w < 2 ^ w := Nat.lt_two_pow w
          _ ≤ 2 ^ K := Nat.pow_le_pow_right (by omega) (by omega)
        have hhK : shrinkDim h K = 1 := by
          apply shrinkDim_eq_one K h (by omega)
          calc h < 2 ^ h := Nat.lt_two_pow h
          _ ≤ 2 ^ K := Nat.pow_le_pow_right (by omega) (by omega)
        have hkK : k ≤ K := by
          by_contra hgt
          have := hleast K (by omega)
          rw [hwK, hhK] at this
          have : s * s < 1 := this
          have : 1 ≤ s * s := Nat.one_le_iff_ne_zero.mpr (by positivity)
          omega
        omega
    rw [get_divider_loop_eq k w h s 1 (w + h + 1) hkfuel hk hleast]
    ring

/-- Witness for the amended claim C6 at the progressive-staging
configuration `w = h = 512, s = 64`, where the least `k` is 3 and the
divider is 8. -/
theorem claim_C6_witness :
    (64 : Nat) ≠ intMax ∧ (1 ≤ 64)
      ∧ shrinkDim 512 3 * shrinkDim 512 3 ≤ 64 * 64
      ∧ (∀ j, j < 3 → 64 * 64 < shrinkDim 512 j * shrinkDim 512 j)
      ∧ get_divider 512 512 64 = 2 ^ 3 :=
  ⟨by decide, by decide, by decide, by decide,
    claim_C6_amended.2.2 512 512 64 3 (by decide) (by decide) (by decide) (by decide)⟩

/-- `set_samples` leaves every configuration field other than `num_samples`
unchanged (here the ones the phase machinery consults). -/
theorem set_samples_preserves (m : TileManager) (n : Int) :
    (set_samples m n).progressive = m.progressive
      ∧ (set_samples m n).range_start_sample = m.range_start_sample
      ∧ (set_samples m n).range_num_samples = m.range_num_samples
      ∧ (set_samples m n).num_samples = n := by
  unfold set_samples
  dsimp only
  split
  · exact ⟨rfl, rfl, rfl, rfl⟩
  · split
    · exact ⟨rfl, rfl, rfl, rfl⟩
    · exact ⟨rfl, rfl, rfl, rfl⟩

/-- The fields of the manager after `reset` that the phase machinery
consults. -/
theorem reset_fields (m : TileManager) (p : BufferParams) (n : Int) :
    (reset m p n).state.resolution_divider = get_divider p.width p.height m.start_resolution
      ∧ (reset m p n).state.sample = m.range_start_sample - 1
      ∧ (reset m p n).state.num_samples = 0
      ∧ (reset m p n).progressive = m.progressive
      ∧ (reset m p n).num_samples = n
      ∧ (reset m p n).range_num_samples = m.range_num_samples
      ∧ (reset m p n).range_start_sample = m.range_start_sample
      ∧ (reset m p n).start_resolution = m.start_resolution := by
  have hp := set_samples_preserves { m with params := p } n
  have hs := set_samples_start_resolution { m with params := p } n
  refine ⟨?_, ?_, rfl, ?_, ?_, ?_, ?_, ?_⟩
  · show get_divider p.width p.height (set_samples { m with params := p } n).start_resolution
      = get_divider p.width p.height m.start_resolution
    rw [hs]
  · show (set_samples { m with params := p } n).range_start_sample - 1
      = m.range_start_sample - 1
    rw [hp.2.1]
  · exact hp.1
  · exact hp.2.2.2
  · exact hp.2.2.1
  · exact hp.2.1
  · exact hs

/-- `set_tiles` only regenerates tiles, queues and the state buffer: the
resolution divider is untouched. -/
theorem set_tiles_resolution_divider (m : TileManager) :
    (set_tiles m).state.resolution_divider = m.state.resolution_divider := rfl

/-- `set_tiles` does not touch the sample counter. -/
theorem set_tiles_sample (m : TileManager) :
    (set_tiles m).state.sample = m.state.sample := rfl

/-- `set_tiles` does not touch the per-phase sample count. -/
theorem set_tiles_state_num_samples (m : TileManager) :
    (set_tiles m).state.num_samples = m.state.num_samples := rfl

/-- `set_tiles` does not touch the configuration. -/
theorem set_tiles_cfg (m : TileManager) :
    (set_tiles m).progressive = m.progressive
      ∧ (set_tiles m).num_samples = m.num_samples
      ∧ (set_tiles m).range_num_samples = m.range_num_samples
      ∧ (set_tiles m).range_start_sample = m.range_start_sample :=
  ⟨rfl, rfl, rfl, rfl⟩

/-- `next` in a progressive phase with a divider still above one: halve the
divider, restart the sample counter, one sample in this phase. -/
theorem next_progressive_step (m : TileManager) (hdone : done m = false)
    (hp : m.progressive = true) (hd : 1 < m.state.resolution_divider) :
    next m = (true, set_tiles { m with state := { m.state with
      sample := 0,
      resolution_divider := m.state.resolution_divider / 2,
      num_samples := 1 } }) := by
  unfold next
  rw [if_neg (by simp [hdone])]
  rw [if_pos ⟨hp, hd⟩]

/-- `next` once the divider has reached one (or staging is off): advance the
sample counter and pin the divider to one. -/
theorem next_sample_step (m : TileManager) (hdone : done m = false)
    (hcond : ¬ (m.progressive = true ∧ 1 < m.state.resolution_divider)) :
    next m = (true, set_tiles { m with state := { m.state with
      sample := m.state.sample + 1,
      num_samples := if m.progressive then 1
        else if m.range_num_samples = -1 then m.num_samples
        else m.range_num_samples,
      resolution_divider := 1 } }) := by
  unfold next
  rw [if_neg (by simp [hdone])]
  rw [if_neg hcond]

/-- Phase transition: a progressive phase with divider above one halves the
divider. -/
theorem next_phase_halve (m : TileManager) (N div : Nat) (s ns : Int)
    (h : phaseState m N div s ns) (hd : 1 < div) :
    (next m).1 = true ∧ phaseState (next m).2 N (div / 2) 0 1 := by
  obtain ⟨h1, h2, h3, h4, h5, h6, h7⟩ := h
  have hne : m.state.resolution_divider ≠ 1 := by rw [h1]; omega
  have hdone : done m = false := by
    unfold done
    rw [decide_eq_false hne]
    rfl
  rw [next_progressive_step m hdone h4 (by rw [h1]; exact hd)]
  refine ⟨rfl, ?_, ?_, ?_, ?_, ?_, ?_, ?_⟩
  · rw [set_tiles_resolution_divider]
    show m.state.resolution_divider / 2 = div / 2
    rw [h1]
  · rw [set_tiles_sample]
  · rw [set_tiles_state_num_samples]
  · rw [(set_tiles_cfg _).1]; exact h4
  · rw [(set_tiles_cfg _).2.1]; exact h5
  · rw [(set_tiles_cfg _).2.2.1]; exact h6
  · rw [(set_tiles_cfg _).2.2.2]; exact h7

/-- Phase transition: at divider one and with samples still to render, the
sample counter advances by one. -/
theorem next_phase_sample (m : TileManager) (N : Nat) (s : Int)
    (h : phaseState m N 1 s 1) (hs : s + 1 < (N : Int)) :
    (next m).1 = true ∧ phaseState (next m).2 N 1 (s + 1) 1 := by
  obtain ⟨h1, h2, h3, h4, h5, h6, h7⟩ := h
  have hdone : done m = false := by
    unfold done
    have hlt : ¬ (endSample m ≤ m.state.sample + m.state.num_samples) := by
      unfold endSample
      rw [if_pos h6, h5, h2, h3]
      omega
    rw [decide_eq_false hlt]
    simp
  have hcond : ¬ (m.progressive = true ∧ 1 < m.state.resolution_divider) := by
    rintro ⟨-, hlt⟩
    rw [h1] at hlt
    omega
  rw [next_sample_step m hdone hcond]
  refine ⟨rfl, ?_, ?_, ?_, ?_, ?_, ?_, ?_⟩
  · rw [set_tiles_resolution_divider]
  · rw [set_tiles_sample]
    show m.state.sample + 1 = s + 1
    rw [h2]
  · rw [set_tiles_state_num_samples]
    show (if m.progressive = true then (1 : Int)
      else if m.range_num_samples = -1 then m.num_samples else m.range_num_samples) = 1
    rw [if_pos h4]
  · rw [(set_tiles_cfg _).1]; exact h4
  · rw [(set_tiles_cfg _).2.1]; exact h5
  · rw [(set_tiles_cfg _).2.2.1]; exact h6
  · rw [(set_tiles_cfg _).2.2.2]; exact h7

/-- Phase transition: at divider one with the last sample rendered, `next`
reports completion and changes nothing. -/
theorem next_phase_done (m : TileManager) (N : Nat) (s : Int)
    (h : phaseState m N 1 s 1) (hs : (N : Int) ≤ s + 1) :
    (next m).1 = false ∧ (next m).2 = m := by
  obtain ⟨h1, h2, h3, h4, h5, h6, h7⟩ := h
  have hdone : done m = true := by
    unfold done
    have hle : endSample m ≤ m.state.sample + m.state.num_samples := by
      unfold endSample
      rw [if_pos h6, h5, h2, h3]
      omega
    rw [h1, decide_eq_true hle]
    simp
  unfold next
  rw [if_pos hdone]
  exact ⟨rfl, rfl⟩

/-- The initial phase of the progressive-staging scenario: divider 8 (from
`get_divider(512, 512, 64)`), sample `-1`, zero samples this phase. -/
theorem mgrProgressive_phase (N : Nat) : phaseState (mgrProgressive N) N 8 (-1) 0 := by
  have hb := reset_fields
    (TileManager.build true (N : Int) (64, 64) 64 true true
      TileOrder.TILE_BOTTOM_TO_TOP 1 false)
    { width := 512, height := 512, full_x := 0, full_y := 0,
      full_width := 512, full_height := 512 } (N : Int)
  have hbuild := reset_fields
    { params := BufferParams.zero, state := RenderState.zero,
      num_samples := (N : Int), progressive := true, tile_size := (64, 64),
      tile_order := TileOrder.TILE_BOTTOM_TO_TOP, start_resolution := 64,
      num_devices := 1, only_denoise := false, preserve_tile_device := true,
      background := true, schedule_denoising := false,
      range_start_sample := 0, range_num_samples := -1 }
    BufferParams.zero 0
  have hb_start : (TileManager.build true (N : Int) (64, 64) 64 true true
      TileOrder.TILE_BOTTOM_TO_TOP 1 false).start_resolution = 64 :=
    hbuild.2.2.2.2.2.2.2
  have hb_rss : (TileManager.build true (N : Int) (64, 64) 64 true true
      TileOrder.TILE_BOTTOM_TO_TOP 1 false).range_start_sample = 0 :=
    hbuild.2.2.2.2.2.2.1
  have hb_rns : (TileManager.build true (N : Int) (64, 64) 64 true true
      TileOrder.TILE_BOTTOM_TO_TOP 1 false).range_num_samples = -1 :=
    hbuild.2.2.2.2.2.1
  have hb_prog : (TileManager.build true (N : Int) (64, 64) 64 true true
      TileOrder.TILE_BOTTOM_TO_TOP 1 false).progressive = true :=
    hbuild.2.2.2.1
  unfold mgrProgressive
  refine ⟨?_, ?_, hb.2.2.1, ?_, hb.2.2.2.2.1, ?_, ?_⟩
  · rw [hb.1, hb_start]
    decide
  · rw [hb.2.1, hb_rss]
    decide
  · rw [hb.2.2.2.1]
    exact hb_prog
  · rw [hb.2.2.2.2.2.1]
    exact hb_rns
  · rw [hb.2.2.2.2.2.2.1]
    exact hb_rss

/-- Counterexample to claim C7: tiles are only (re)generated inside
`next()`, and the very first `next()` after `reset` already halves the
divider, so the first rendering phase runs at divider 4 — there is no phase
at divider 8. -/
theorem claim_C7_counterexample :
    (mgrProgressive 4).state.resolution_divider = 8
      ∧ (nextIter (mgrProgressive 4) 1).state.resolution_divider = 4
      ∧ ¬ ((nextIter (mgrProgressive 4) 1).state.resolution_divider = 8) := by
  decide

/-- Claim C7 as amended: with `progressive`, `start_resolution = 64` and a
512×512 image, `reset` sets `resolution_divider = 8`; the successive
`next()` calls then produce rendering phases at dividers 4 and 2 (one
sample each) followed by `num_samples` one-sample phases at divider 1
(samples `0 .. num_samples - 1`), after which `next()` returns false.  The
divider-8 value exists only between `reset` and the first `next()`, before
any tiles are generated. -/
theorem claim_C7_amended (N : Nat) (hN : 1 ≤ N) : progressiveSpec N := by
  have h0 := mgrProgressive_phase N
  have s1 := next_phase_halve _ _ _ _ _ h0 (by omega)
  have s2 := next_phase_halve _ _ _ _ _ s1.2 (by omega)
  have s3 := next_phase_halve _ _ _ _ _ s2.2 (by omega)
  have main : ∀ j, j < N →
      phaseState (nextIter (mgrProgressive N) (3 + j)) N 1 (j : Int) 1 := by
    intro j
    induction j with
    | zero =>
      intro _
      exact s3.2
    | succ j ih =>
      intro hj
      have hp := ih (by omega)
      have hstep := next_phase_sample _ _ _ hp (by omega)
      have h2 := hstep.2
      rw [show ((j : Int) + 1) = ((j + 1 : Nat) : Int) by push_cast; ring] at h2
      exact h2
  have htrue : ∀ k, k < N + 2 → (next (nextIter (mgrProgressive N) k)).1 = true := by
    intro k hk
    rcases k with _ | (_ | (_ | j))
    · exact s1.1
    · exact s2.1
    · exact s3.1
    · have hp := main j (by omega)
      have hstep := next_phase_sample _ _ _ hp (by omega)
      rw [show j + 1 + 1 + 1 = 3 + j by omega]
      exact hstep.1
  have hlast : (next (nextIter (mgrProgressive N) (N + 2))).1 = false := by
    have hp := main (N - 1) (by omega)
    rw [show N + 2 = 3 + (N - 1) by omega]
    exact (next_phase_done _ _ _ hp (by omega)).1
  exact ⟨h0.1, htrue, s1.2.1, s1.2.2.1, s1.2.2.2.1, s2.2.1, s2.2.2.1, s2.2.2.2.1,
    fun j hj => ⟨(main j hj).1, (main j hj).2.1, (main j hj).2.2.1⟩, hlast⟩

/-- Witness for the amended claim C7 at `num_samples = 2`. -/
theorem claim_C7_witness : 1 ≤ 2 ∧ progressiveSpec 2 :=
  ⟨by decide, claim_C7_amended 2 (by decide)⟩

/-- The Hilbert loop over a power-of-two grid equals its structural
unrolling `hilbertF`. -/
theorem hilbert_loop_eq_hilbertF :
    ∀ m j d xy, hilbert_loop (2 ^ j * 2 ^ m) (2 ^ j) d xy = hilbertF m j d xy := by
  intro m
  induction m with
  | zero =>
    intro j d xy
    rw [hilbert_loop]
    rw [dif_neg (by simp)]
    rfl
  | succ m ih =>
    intro j d xy
    rw [hilbert_loop]
    rw [dif_pos ⟨Nat.two_pow_pos j, by
      rw [Nat.lt_mul_iff_one_lt_right (Nat.two_pow_pos j)]
      exact Nat.one_lt_two_pow (by omega)⟩]
    rw [show (2 : Nat) ^ j * 2 ^ (m + 1) = 2 ^ (j + 1) * 2 ^ m by
      rw [pow_succ, pow_succ]; ring]
    rw [show (2 : Nat) ^ j * 2 = 2 ^ (j + 1) by rw [pow_succ]]
    exact ih (j + 1) (d >>> 2) (hilbert_step (2 ^ j) d xy)

/-- `hilbert_index_to_pos` on a power-of-two grid is the `k`-fold unrolled
loop started at the origin. -/
theorem hilbert_index_to_pos_eq (k d : Nat) :
    hilbert_index_to_pos (2 ^ k) d = hilbertF k 0 d (0, 0) := by
  have h := hilbert_loop_eq_hilbertF k 0 d (0, 0)
  simpa [hilbert_index_to_pos] using h

/-- The rotation bits of one Hilbert step written arithmetically:
`rx = (d>>1)&1 = d%4/2` and `ry = (d^rx)&1 = (d + rx) % 2`. -/
theorem hilbert_step_rx_ry (s d : Nat) (xy : Nat × Nat) :
    hilbert_step s d xy =
      ((if (d + d % 4 / 2) % 2 = 0 then
          ((if d % 4 / 2 = 1 then (s - 1 - xy.1, s - 1 - xy.2) else xy).2,
           (if d % 4 / 2 = 1 then (s - 1 - xy.1, s - 1 - xy.2) else xy).1)
        else xy).1 + d % 4 / 2 * s,
       (if (d + d % 4 / 2) % 2 = 0 then
          ((if d % 4 / 2 = 1 then (s - 1 - xy.1, s - 1 - xy.2) else xy).2,
           (if d % 4 / 2 = 1 then (s - 1 - xy.1, s - 1 - xy.2) else xy).1)
        else xy).2 + (d + d % 4 / 2) % 2 * s) := by
  have hrx : (d >>> 1) &&& 1 = d % 4 / 2 := by
    simp only [Nat.shiftRight_eq_div_pow, Nat.and_one_is_mod, pow_one]
    omega
  have hry : (d ^^^ d % 4 / 2) &&& 1 = (d + d % 4 / 2) % 2 := by
    rw [Nat.and_one_is_mod, Nat.xor_mod_two_eq]
  unfold hilbert_step
  dsimp only
  rw [hrx, hry]
  by_cases h : (d + d % 4 / 2) % 2 = 0 <;> simp [h]

/-- Case analysis of one Hilbert step by the two low bits of `d`: the four
quadrant placements of the standard construction. -/
theorem hilbert_step_cases (s d x y : Nat) :
    hilbert_step s d (x, y) =
      if d % 4 = 0 then (y, x)
      else if d % 4 = 1 then (x, y + s)
      else if d % 4 = 2 then (x + s, y + s)
      else (s - 1 - y + s, s - 1 - x) := by
  rw [hilbert_step_rx_ry]
  rcases (by omega : d % 4 = 0 ∨ d % 4 = 1 ∨ d % 4 = 2 ∨ d % 4 = 3) with hc | hc | hc | hc
  · rw [show d % 4 / 2 = 0 by omega]
    rw [show (d + 0) % 2 = 0 by omega]
    simp [hc]
  · rw [show d % 4 / 2 = 0 by omega]
    rw [show (d + 0) % 2 = 1 by omega]
    simp [hc]
  · rw [show d % 4 / 2 = 1 by omega]
    rw [show (d + 1) % 2 = 1 by omega]
    simp [hc]
  · rw [show d % 4 / 2 = 1 by omega]
    rw [show (d + 1) % 2 = 0 by omega]
    simp [hc]

/-- One Hilbert step takes the `s × s` square into the `2s × 2s` square. -/
theorem hilbert_step_lt (s d x y : Nat) (hx : x < s) (hy : y < s) :
    (hilbert_step s d (x, y)).1 < 2 * s ∧ (hilbert_step s d (x, y)).2 < 2 * s := by
  rw [hilbert_step_cases]
  rcases (by omega : d % 4 = 0 ∨ d % 4 = 1 ∨ d % 4 = 2 ∨ d % 4 = 3) with hc | hc | hc | hc <;>
    simp [hc] <;> omega

/-- One Hilbert step determines the two consumed bits of `d` and the
incoming position. -/
theorem hilbert_step_inj (s d d' x y x' y' : Nat)
    (hx : x < s) (hy : y < s) (hx' : x' < s) (hy' : y' < s)
    (heq : hilbert_step s d (x, y) = hilbert_step s d' (x', y')) :
    d % 4 = d' % 4 ∧ x = x' ∧ y = y' := by
  rw [hilbert_step_cases s d x y, hilbert_step_cases s d' x' y'] at heq
  rcases (by omega : d % 4 = 0 ∨ d % 4 = 1 ∨ d % 4 = 2 ∨ d % 4 = 3) with hc | hc | hc | hc <;>
    rcases (by omega : d' % 4 = 0 ∨ d' % 4 = 1 ∨ d' % 4 = 2 ∨ d' % 4 = 3) with hc' | hc' | hc' | hc' <;>
    simp [hc, hc', Prod.ext_iff] at heq <;>
    refine ⟨by omega, by omega, by omega⟩

/-- The unrolled Hilbert map sends the `2^j` square to the `2^(j+m)`
square. -/
theorem hilbertF_lt :
    ∀ m j d x y, x < 2 ^ j → y < 2 ^ j →
      (hilbertF m j d (x, y)).1 < 2 ^ (j + m) ∧ (hilbertF m j d (x, y)).2 < 2 ^ (j + m) := by
  intro m
  induction m with
  | zero =>
    intro j d x y hx hy
    simpa [hilbertF] using ⟨hx, hy⟩
  | succ m ih =>
    intro j d x y hx hy
    have hstep := hilbert_step_lt (2 ^ j) d x y hx hy
    have h2 : (2 : Nat) * 2 ^ j = 2 ^ (j + 1) := by rw [pow_succ]; ring
    have hrec := ih (j + 1) (d >>> 2) (hilbert_step (2 ^ j) d (x, y)).1
      (hilbert_step (2 ^ j) d (x, y)).2 (by omega) (by omega)
    rw [show j + (m + 1) = (j + 1) + m by omega]
    exact hrec

/-- The unrolled Hilbert map is injective in the `2m` consumed bits of `d`
and the incoming position. -/
theorem hilbertF_inj :
    ∀ m j d d' x y x' y', x < 2 ^ j → y < 2 ^ j → x' < 2 ^ j → y' < 2 ^ j →
      hilbertF m j d (x, y) = hilbertF m j d' (x', y') →
      d % 4 ^ m = d' % 4 ^ m ∧ x = x' ∧ y = y' := by
  intro m
  induction m with
  | zero =>
    intro j d d' x y x' y' _ _ _ _ heq
    have h2 : ((x, y) : Nat × Nat) = (x', y') := heq
    injection h2 with h3 h4
    exact ⟨by simp [Nat.mod_one], h3, h4⟩
  | succ m ih =>
    intro j d d' x y x' y' hx hy hx' hy' heq
    have hstep := hilbert_step_lt (2 ^ j) d x y hx hy
    have hstep' := hilbert_step_lt (2 ^ j) d' x' y' hx' hy'
    have h2 : (2 : Nat) * 2 ^ j = 2 ^ (j + 1) := by rw [pow_succ]; ring
    have key := ih (j + 1) (d >>> 2) (d' >>> 2)
      (hilbert_step (2 ^ j) d (x, y)).1 (hilbert_step (2 ^ j) d (x, y)).2
      (hilbert_step (2 ^ j) d' (x', y')).1 (hilbert_step (2 ^ j) d' (x', y')).2
      (by omega) (by omega) (by omega) (by omega) heq
    have hpair : hilbert_step (2 ^ j) d (x, y) = hilbert_step (2 ^ j) d' (x', y') := by
      exact Prod.ext_iff.mpr ⟨key.2.1, key.2.2⟩
    have hsi := hilbert_step_inj (2 ^ j) d d' x y x' y' hx hy hx' hy' hpair
    refine ⟨?_, hsi.2.1, hsi.2.2⟩
    have hmod : ∀ e : Nat, e % 4 ^ (m + 1) = e % 4 + 4 * (e / 4 % 4 ^ m) := by
      intro e
      rw [pow_succ, mul_comm ((4 : Nat) ^ m) 4]
      exact Nat.mod_mul
    have hdiv : ∀ e : Nat, e >>> 2 = e / 4 := by
      intro e
      rw [Nat.shiftRight_eq_div_pow]
    rw [hmod d, hmod d', hsi.1]
    rw [hdiv d, hdiv d'] at key
    rw [key.1]

/-- Claim C9: for every power-of-two side length `H = 2^k` (the code uses
`H ∈ {4, 8}`), the map `d ↦ hilbert_index_to_pos(H, d)` restricted to
`{0, …, H² - 1}` is a bijection onto the grid `{0, …, H-1} × {0, …, H-1}`. -/
theorem claim_C9_hilbert_bijection (k : Nat) :
    Set.BijOn (fun d => hilbert_index_to_pos (2 ^ k) d)
      {d : Nat | d < 2 ^ k * 2 ^ k} {p : Nat × Nat | p.1 < 2 ^ k ∧ p.2 < 2 ^ k} := by
  have h4 : (4 : Nat) ^ k = 2 ^ k * 2 ^ k := by
    rw [show (4 : Nat) = 2 * 2 by norm_num, mul_pow]
  have hone : (0 : Nat) < 2 ^ 0 := by norm_num
  have hmaps : Set.MapsTo (fun d => hilbert_index_to_pos (2 ^ k) d)
      {d : Nat | d < 2 ^ k * 2 ^ k} {p : Nat × Nat | p.1 < 2 ^ k ∧ p.2 < 2 ^ k} := by
    intro d _
    have hb := hilbertF_lt k 0 d 0 0 hone hone
    simp only [Set.mem_setOf_eq, hilbert_index_to_pos_eq]
    simpa using hb
  have hinj : Set.InjOn (fun d => hilbert_index_to_pos (2 ^ k) d)
      {d : Nat | d < 2 ^ k * 2 ^ k} := by
    intro d hd d' hd' heq
    simp only [hilbert_index_to_pos_eq] at heq
    have := (hilbertF_inj k 0 d d' 0 0 0 0 hone hone hone hone heq).1
    rw [Nat.mod_eq_of_lt (by rw [h4]; exact hd), Nat.mod_eq_of_lt (by rw [h4]; exact hd')] at this
    exact this
  refine ⟨hmaps, hinj, ?_⟩
  intro p hp
  have hinjF : Set.InjOn (fun d => hilbert_index_to_pos (2 ^ k) d)
      ↑(Finset.range (2 ^ k * 2 ^ k)) := by
    intro a ha b hb hab
    have ha' : a < 2 ^ k * 2 ^ k := by simpa using ha
    have hb' : b < 2 ^ k * 2 ^ k := by simpa using hb
    exact hinj ha' hb' hab
  have hcard : ((Finset.range (2 ^ k * 2 ^ k)).image
      (fun d => hilbert_index_to_pos (2 ^ k) d)).card = 2 ^ k * 2 ^ k := by
    rw [Finset.card_image_of_injOn hinjF, Finset.card_range]
  have himg : (Finset.range (2 ^ k * 2 ^ k)).image (fun d => hilbert_index_to_pos (2 ^ k) d)
      = Finset.range (2 ^ k) ×ˢ Finset.range (2 ^ k) := by
    apply Finset.eq_of_subset_of_card_le
    · intro q hq
      obtain ⟨d, hd, rfl⟩ := Finset.mem_image.mp hq
      have hdlt : d < 2 ^ k * 2 ^ k := Finset.mem_range.mp hd
      have hmem := hmaps hdlt
      simp only [Set.mem_setOf_eq] at hmem
      exact Finset.mem_product.mpr ⟨Finset.mem_range.mpr hmem.1, Finset.mem_range.mpr hmem.2⟩
    · rw [Finset.card_product, Finset.card_range, hcard]
  have hpmem : p ∈ Finset.range (2 ^ k) ×ˢ Finset.range (2 ^ k) :=
    Finset.mem_product.mpr ⟨Finset.mem_range.mpr hp.1, Finset.mem_range.mpr hp.2⟩
  rw [← himg] at hpmem
  obtain ⟨d, hd, hfd⟩ := Finset.mem_image.mp hpmem
  exact ⟨d, Finset.mem_range.mp hd, hfd⟩

/-- `getD` after `set` at the written (in-range) index. -/
theorem getD_set_self {α : Type _} (l : List α) (i : Nat) (v d : α) (h : i < l.length) :
    (l.set i v).getD i d = v := by
  rw [List.getD_eq_getElem?_getD, List.getElem?_set_self h]
  rfl

/-- `getD` after `set` at a different index. -/
theorem getD_set_ne {α : Type _} (l : List α) (i j : Nat) (v d : α) (h : i ≠ j) :
    (l.set i v).getD j d = l.getD j d := by
  rw [List.getD_eq_getElem?_getD, List.getElem?_set_ne h, ← List.getD_eq_getElem?_getD]

/-- Membership in a stable insertion. -/
theorem mem_insertSorted (le : Nat → Nat → Bool) (a x : Nat) :
    ∀ l, x ∈ insertSorted le a l ↔ x = a ∨ x ∈ l := by
  intro l
  induction l with
  | nil => simp [insertSorted]
  | cons b l ih =>
    simp only [insertSorted]
    split
    · simp [List.mem_cons]
    · simp only [List.mem_cons, ih]
      tauto

/-- A stable insertion adds one element. -/
theorem length_insertSorted (le : Nat → Nat → Bool) (a : Nat) :
    ∀ l, (insertSorted le a l).length = l.length + 1 := by
  intro l
  induction l with
  | nil => rfl
  | cons b l ih =>
    simp only [insertSorted]
    split
    · rfl
    · simp [ih]

/-- Sorting preserves length. -/
theorem length_sortList (le : Nat → Nat → Bool) :
    ∀ l, (sortList le l).length = l.length := by
  intro l
  induction l with
  | nil => rfl
  | cons a l ih => simp [sortList, length_insertSorted, ih]

/-- Sorting preserves membership. -/
theorem mem_sortList (le : Nat → Nat → Bool) (x : Nat) :
    ∀ l, x ∈ sortList le l ↔ x ∈ l := by
  intro l
  induction l with
  | nil => simp [sortList]
  | cons a l ih => simp [sortList, mem_insertSorted, ih]

/-- Inserting into a `le`-sorted list keeps it sorted, given totality and
transitivity of `le`. -/
theorem pairwise_insertSorted (le : Nat → Nat → Bool)
    (total : ∀ a b, le a b = true ∨ le b a = true)
    (trans : ∀ a b c, le a b = true → le b c = true → le a c = true) (a : Nat) :
    ∀ l, l.Pairwise (fun x y => le x y = true) →
      (insertSorted le a l).Pairwise (fun x y => le x y = true) := by
  intro l
  induction l with
  | nil =>
    intro _
    simp [insertSorted]
  | cons b l ih =>
    intro hp
    rw [List.pairwise_cons] at hp
    simp only [insertSorted]
    by_cases hab : le a b = true
    · rw [if_pos hab]
      rw [List.pairwise_cons]
      refine ⟨?_, List.pairwise_cons.mpr hp⟩
      intro y hy
      rcases List.mem_cons.mp hy with hyb | hyl
      · rw [hyb]; exact hab
      · exact trans a b y hab (hp.1 y hyl)
    · rw [if_neg hab]
      rw [List.pairwise_cons]
      refine ⟨?_, ih hp.2⟩
      intro y hy
      rcases (mem_insertSorted le a y l).mp hy with hya | hyl
      · rw [hya]
        rcases total a b with h | h
        · exact absurd h hab
        · exact h
      · exact hp.1 y hyl

/-- The stable insertion sort produces a `le`-sorted list, given totality
and transitivity of `le`. -/
theorem pairwise_sortList (le : Nat → Nat → Bool)
    (total : ∀ a b, le a b = true ∨ le b a = true)
    (trans : ∀ a b c, le a b = true → le b c = true → le a c = true) :
    ∀ l, (sortList le l).Pairwise (fun x y => le x y = true) := by
  intro l
  induction l with
  | nil => simp [sortList]
  | cons a l ih => exact pairwise_insertSorted le total trans a _ ih

/-- Every `TileComparator` is asymmetric (it is a strict weak order). -/
theorem tileCompare_asymm (o : TileOrder) (c : Nat × Nat) (ta tb : Tile)
    (h : tileCompare o c ta tb = true) : tileCompare o c tb ta = false := by
  cases o <;>
    simp only [tileCompare] at h ⊢ <;>
    (try split_ifs at h ⊢) <;>
    (try simp_all) <;>
    omega

/-- Every `TileComparator` is negatively transitive. -/
theorem tileCompare_negtrans (o : TileOrder) (c : Nat × Nat) (ta tb tc : Tile)
    (h1 : tileCompare o c tb ta = false) (h2 : tileCompare o c tc tb = false) :
    tileCompare o c tc ta = false := by
  cases o <;>
    simp only [tileCompare] at h1 h2 ⊢ <;>
    (try split_ifs at h1 h2 ⊢) <;>
    (try simp_all) <;>
    omega

/-- The comparator only reads the geometric fields of its two tiles. -/
theorem tileCompare_congr (o : TileOrder) (c : Nat × Nat) (ta ta' tb tb' : Tile)
    (ha : tileGeom ta = tileGeom ta') (hb : tileGeom tb = tileGeom tb') :
    tileCompare o c ta tb = tileCompare o c ta' tb' := by
  have hax : ta.x = ta'.x := congrArg (fun p => p.1) ha
  have hay : ta.y = ta'.y := congrArg (fun p => p.2.1) ha
  have haw : ta.w = ta'.w := congrArg (fun p => p.2.2.1) ha
  have hah : ta.h = ta'.h := congrArg (fun p => p.2.2.2) ha
  have hbx : tb.x = tb'.x := congrArg (fun p => p.1) hb
  have hby : tb.y = tb'.y := congrArg (fun p => p.2.1) hb
  have hbw : tb.w = tb'.w := congrArg (fun p => p.2.2.1) hb
  have hbh : tb.h = tb'.h := congrArg (fun p => p.2.2.2) hb
  cases o <;>
    simp [tileCompare, tile_center_dist2, hax, hay, haw, hah, hbx, hby, hbw, hbh]

/-- `le a b := !comp(b, a)` over any tile array is total. -/
theorem comp_le_total (o : TileOrder) (c : Nat × Nat) (tiles : List Tile) (a b : Nat) :
    (! tileComparator o c tiles b a) = true ∨ (! tileComparator o c tiles a b) = true := by
  by_cases h : tileComparator o c tiles b a = true
  · right
    rw [Bool.not_eq_true']
    exact tileCompare_asymm o c _ _ h
  · left
    rw [Bool.not_eq_true']
    rcases Bool.eq_false_or_eq_true (tileComparator o c tiles b a) with ht | hf
    · exact absurd ht h
    · exact hf

/-- `le a b := !comp(b, a)` over any tile array is transitive. -/
theorem comp_le_trans (o : TileOrder) (c : Nat × Nat) (tiles : List Tile) (a b e : Nat)
    (h1 : (! tileComparator o c tiles b a) = true)
    (h2 : (! tileComparator o c tiles e b) = true) :
    (! tileComparator o c tiles e a) = true := by
  rw [Bool.not_eq_true'] at h1 h2 ⊢
  exact tileCompare_negtrans o c _ _ _ h1 h2

/-- The tile written by the background pass at grid cell `(ty, tx)` has the
geometry of the reference tile `bgPure` of its index, whatever device tag
it carries. -/
theorem mkGenTile_geom (m : TileManager) (h1 : 1 ≤ m.tile_size.1) (dev ty tx : Nat)
    (htx : tx < genTileW m) :
    tileGeom (mkGenTile m (genTileW m) (genTileH m) 0 (genImageH m) dev ty tx)
      = tileGeom (bgPure m (ty * genTileW m + tx)) := by
  have hW : 0 < genTileW m := genTileW_pos m h1
  have hdiv : (ty * genTileW m + tx) / genTileW m = ty := by
    rw [mul_comm, Nat.mul_add_div hW, Nat.div_eq_of_lt htx]
    omega
  have hmod : (ty * genTileW m + tx) % genTileW m = tx := by
    rw [mul_comm, Nat.mul_add_mod, Nat.mod_eq_of_lt htx]
  unfold bgPure
  rw [hdiv, hmod]
  rfl

/-- The base equation of `bgLoop`. -/
theorem bgLoop_nil (m : TileManager) (tile_w per : Nat) (mk : Nat → Nat → Nat → Tile)
    (tiles : List Tile) (cur : List Nat) (dev : Nat) :
    bgLoop m tile_w per mk [] tiles cur dev = (tiles, [cur]) := rfl

/-- The step equation of `bgLoop`, with the let-bindings expanded. -/
theorem bgLoop_cons (m : TileManager) (tile_w per : Nat) (mk : Nat → Nat → Nat → Tile)
    (p : Nat × Nat) (rest : List (Nat × Nat)) (tiles : List Tile) (cur : List Nat)
    (dev : Nat) :
    bgLoop m tile_w per mk (p :: rest) tiles cur dev =
      if (cur ++ [p.1 * tile_w + p.2]).length = per then
        ((bgLoop m tile_w per mk rest
            (tiles.set (p.1 * tile_w + p.2) (mk dev p.1 p.2)) [] (dev + 1)).1,
         (if m.tile_order = TileOrder.TILE_BOTTOM_TO_TOP then cur ++ [p.1 * tile_w + p.2]
          else sortList (fun a b => ! tileComparator m.tile_order (genCenter m)
              (tiles.set (p.1 * tile_w + p.2) (mk dev p.1 p.2)) b a)
            (cur ++ [p.1 * tile_w + p.2]))
          :: (bgLoop m tile_w per mk rest
            (tiles.set (p.1 * tile_w + p.2) (mk dev p.1 p.2)) [] (dev + 1)).2)
      else bgLoop m tile_w per mk rest
        (tiles.set (p.1 * tile_w + p.2) (mk dev p.1 p.2)) (cur ++ [p.1 * tile_w + p.2]) dev
    := rfl

/-- Invariant of the background chunk loop: the tile array keeps its length
and the written entries have the reference geometry; every produced queue
references valid, reference-geometry tiles; a queue filled to
`tiles_per_device` under a sorting order is sorted by the pure comparator;
and a bottom-to-top or leftover queue is in ascending generation order. -/
theorem bgLoop_spec (m : TileManager) (tile_w per : Nat) (mk : Nat → Nat → Nat → Tile)
    (pureT : Nat → Tile)
    (Hmk : ∀ dev ty tx, tx < tile_w →
      tileGeom (mk dev ty tx) = tileGeom (pureT (ty * tile_w + tx))) :
    ∀ (pairs : List (Nat × Nat)) (tiles : List Tile) (cur : List Nat) (dev : Nat),
      (∀ p ∈ pairs, p.2 < tile_w ∧ p.1 * tile_w + p.2 < tiles.length) →
      (∀ i ∈ cur, i < tiles.length
        ∧ tileGeom (tiles.getD i defaultTile) = tileGeom (pureT i)) →
      cur.Pairwise (· < ·) →
      (∀ i ∈ cur, ∀ p ∈ pairs, i < p.1 * tile_w + p.2) →
      pairs.Pairwise (fun p q => p.1 * tile_w + p.2 < q.1 * tile_w + q.2) →
      (per = 0 ∨ cur.length < per) →
      (bgLoop m tile_w per mk pairs tiles cur dev).1.length = tiles.length
      ∧ (∀ i, tileGeom (tiles.getD i defaultTile) = tileGeom (pureT i) →
          tileGeom ((bgLoop m tile_w per mk pairs tiles cur dev).1.getD i defaultTile)
            = tileGeom (pureT i))
      ∧ (∀ q ∈ (bgLoop m tile_w per mk pairs tiles cur dev).2,
          (∀ i ∈ q, i < tiles.length
            ∧ tileGeom ((bgLoop m tile_w per mk pairs tiles cur dev).1.getD i defaultTile)
              = tileGeom (pureT i))
          ∧ (q.length = per → m.tile_order ≠ TileOrder.TILE_BOTTOM_TO_TOP →
              q.Pairwise (fun a b =>
                tileCompare m.tile_order (genCenter m) (pureT b) (pureT a) = false))
          ∧ (m.tile_order = TileOrder.TILE_BOTTOM_TO_TOP ∨ q.length ≠ per →
              q.Pairwise (· < ·))) := by
  intro pairs
  induction pairs with
  | nil =>
    intro tiles cur dev Hp Hc Hasc Hlt Hinc Hlen
    rw [bgLoop_nil]
    refine ⟨rfl, fun i h => h, ?_⟩
    intro q hq
    simp only [List.mem_singleton] at hq
    subst hq
    refine ⟨fun i hi => Hc i hi, ?_, fun _ => Hasc⟩
    intro hql _
    rcases Hlen with h0 | hlt
    · have hnil : q = [] := List.eq_nil_of_length_eq_zero (by omega)
      rw [hnil]
      exact List.Pairwise.nil
    · omega
  | cons p rest ih =>
    intro tiles cur dev Hp Hc Hasc Hlt Hinc Hlen
    obtain ⟨hptx, hplt⟩ := Hp p (List.mem_cons_self p rest)
    rw [bgLoop_cons]
    set E := p.1 * tile_w + p.2 with hE
    set T2 := tiles.set E (mk dev p.1 p.2) with hT2
    set C2 := cur ++ [E] with hC2
    have hT2len : T2.length = tiles.length := by
      rw [hT2]
      exact List.length_set tiles E _
    have hT2geomE : tileGeom (T2.getD E defaultTile) = tileGeom (pureT E) := by
      rw [hT2, getD_set_self tiles E _ _ hplt]
      exact Hmk dev p.1 p.2 hptx
    have hT2geom : ∀ i, tileGeom (tiles.getD i defaultTile) = tileGeom (pureT i) →
        tileGeom (T2.getD i defaultTile) = tileGeom (pureT i) := by
      intro i hi
      by_cases hiE : E = i
      · rw [← hiE]
        exact hT2geomE
      · rw [hT2, getD_set_ne tiles E i _ _ hiE]
        exact hi
    have hC2len : C2.length = cur.length + 1 := by
      rw [hC2]
      simp
    have hC2mem : ∀ i ∈ C2, i < T2.length
        ∧ tileGeom (T2.getD i defaultTile) = tileGeom (pureT i) := by
      intro i hi
      rw [hC2, List.mem_append] at hi
      rcases hi with hi | hi
      · obtain ⟨hilt, hig⟩ := Hc i hi
        refine ⟨by omega, hT2geom i hig⟩
      · simp only [List.mem_singleton] at hi
        subst hi
        exact ⟨by omega, hT2geomE⟩
    have hC2asc : C2.Pairwise (· < ·) := by
      rw [hC2, List.pairwise_append]
      refine ⟨Hasc, List.pairwise_singleton _ _, ?_⟩
      intro a ha b hb
      simp only [List.mem_singleton] at hb
      subst hb
      exact Hlt a ha p (List.mem_cons_self p rest)
    have hC2lt : ∀ i ∈ C2, ∀ q ∈ rest, i < q.1 * tile_w + q.2 := by
      intro i hi q hq
      rw [hC2, List.mem_append] at hi
      rcases hi with hi | hi
      · exact Hlt i hi q (List.mem_cons_of_mem p hq)
      · simp only [List.mem_singleton] at hi
        subst hi
        exact (List.pairwise_cons.mp Hinc).1 q hq
    have Hp' : ∀ q ∈ rest, q.2 < tile_w ∧ q.1 * tile_w + q.2 < T2.length := by
      intro q hq
      obtain ⟨h1, h2⟩ := Hp q (List.mem_cons_of_mem p hq)
      exact ⟨h1, by omega⟩
    have Hinc' := (List.pairwise_cons.mp Hinc).2
    by_cases hflush : C2.length = per
    · rw [if_pos hflush]
      have hper1 : 1 ≤ per := by omega
      obtain ⟨ihlen, ihgeom, ihq⟩ := ih T2 [] (dev + 1) Hp'
        (by intro i hi; simp at hi)
        List.Pairwise.nil
        (by intro i hi; simp at hi)
        Hinc'
        (Or.inr (by simp; omega))
      refine ⟨by rw [ihlen, hT2len], ?_, ?_⟩
      · intro i hi
        exact ihgeom i (hT2geom i hi)
      · intro q hq
        rcases List.mem_cons.mp hq with hq | hq
        · -- q is the flushed (possibly sorted) chunk
          subst hq
          have hmemS : ∀ i, i ∈ (if m.tile_order = TileOrder.TILE_BOTTOM_TO_TOP then C2
              else sortList (fun a b => ! tileComparator m.tile_order (genCenter m) T2 b a) C2)
              → i ∈ C2 := by
            intro i hi
            by_cases hbtt : m.tile_order = TileOrder.TILE_BOTTOM_TO_TOP
            · rwa [if_pos hbtt] at hi
            · rw [if_neg hbtt] at hi
              exact (mem_sortList _ i C2).mp hi
          refine ⟨?_, ?_, ?_⟩
          · intro i hi
            obtain ⟨hilt, hig⟩ := hC2mem i (hmemS i hi)
            exact ⟨by omega, ihgeom i hig⟩
          · intro _ hbtt
            rw [if_neg hbtt]
            have hsorted := pairwise_sortList
              (fun a b => ! tileComparator m.tile_order (genCenter m) T2 b a)
              (fun a b => comp_le_total m.tile_order (genCenter m) T2 a b)
              (fun a b e => comp_le_trans m.tile_order (genCenter m) T2 a b e) C2
            refine hsorted.imp_of_mem ?_
            intro a b ha hb hle
            have haC : a ∈ C2 := (mem_sortList _ a C2).mp ha
            have hbC : b ∈ C2 := (mem_sortList _ b C2).mp hb
            rw [Bool.not_eq_true'] at hle
            have hcongr := tileCompare_congr m.tile_order (genCenter m)
              (T2.getD b defaultTile) (pureT b) (T2.getD a defaultTile) (pureT a)
              (hC2mem b hbC).2 (hC2mem a haC).2
            rw [← hcongr]
            exact hle
          · intro htrig
            by_cases hbtt : m.tile_order = TileOrder.TILE_BOTTOM_TO_TOP
            · rw [if_pos hbtt]
              exact hC2asc
            · rw [if_neg hbtt]
              rcases htrig with hbtt' | hlen
              · exact absurd hbtt' hbtt
              · exfalso
                rw [if_neg hbtt, length_sortList] at hlen
                exact hlen hflush
        · obtain ⟨a1, a2, a3⟩ := ihq q hq
          refine ⟨?_, a2, a3⟩
          intro i hi
          obtain ⟨hilt, hig⟩ := a1 i hi
          exact ⟨by omega, hig⟩
    · rw [if_neg hflush]
      obtain ⟨l1, l2, l3⟩ := ih T2 C2 dev Hp' hC2mem hC2asc hC2lt Hinc'
        (by rcases Hlen with h0 | h
            · exact Or.inl h0
            · exact Or.inr (by omega))
      refine ⟨by rw [l1, hT2len], ?_, ?_⟩
      · intro i hi
        exact l2 i (hT2geom i hi)
      · intro q hq
        obtain ⟨a1, a2, a3⟩ := l3 q hq
        refine ⟨?_, a2, a3⟩
        intro i hi
        obtain ⟨hilt, hig⟩ := a1 i hi
        exact ⟨by omega, hig⟩

/-- The `TILE_BOTTOM_TO_TOP` comparator respects the ascending grid index
of the reference tiles: generation order is already sorted. -/
theorem bgPure_btt_lt (m : TileManager) (h1 : 1 ≤ m.tile_size.1) (h2 : 1 ≤ m.tile_size.2)
    (a b : Nat) (hab : a < b) :
    tileCompare TileOrder.TILE_BOTTOM_TO_TOP (genCenter m) (bgPure m b) (bgPure m a)
      = false := by
  have hW : 0 < genTileW m := genTileW_pos m h1
  have hx : ∀ e : Nat, (bgPure m e).x = e % genTileW m * m.tile_size.1 := fun e => rfl
  have hy : ∀ e : Nat, (bgPure m e).y = e / genTileW m * m.tile_size.2 + 0 := fun e => rfl
  have hgoal : tileCompare TileOrder.TILE_BOTTOM_TO_TOP (genCenter m) (bgPure m b) (bgPure m a)
      = (if (bgPure m b).y = (bgPure m a).y then decide ((bgPure m b).x < (bgPure m a).x)
         else decide ((bgPure m b).y < (bgPure m a).y)) := rfl
  rw [hgoal]
  have hdivle : a / genTileW m ≤ b / genTileW m := Nat.div_le_div_right (le_of_lt hab)
  rcases Nat.lt_or_ge (a / genTileW m) (b / genTileW m) with hdlt | hdge
  · have hylt : (bgPure m a).y < (bgPure m b).y := by
      rw [hy, hy]
      have := (Nat.mul_lt_mul_right (show 0 < m.tile_size.2 by omega)).mpr hdlt
      omega
    rw [if_neg (by omega)]
    exact decide_eq_false (by omega)
  · have hdeq : a / genTileW m = b / genTileW m := le_antisymm hdivle hdge
    have hmlt : a % genTileW m < b % genTileW m := by
      by_contra hge
      push_neg at hge
      have hba : b ≤ a := by
        calc b = genTileW m * (b / genTileW m) + b % genTileW m :=
          (Nat.div_add_mod b (genTileW m)).symm
        _ ≤ genTileW m * (b / genTileW m) + a % genTileW m := Nat.add_le_add_left hge _
        _ = genTileW m * (a / genTileW m) + a % genTileW m := by rw [hdeq]
        _ = a := Nat.div_add_mod a (genTileW m)
      omega
    have hyeq : (bgPure m b).y = (bgPure m a).y := by
      rw [hy, hy, hdeq]
    have hxlt : (bgPure m a).x < (bgPure m b).x := by
      rw [hx, hx]
      exact (Nat.mul_lt_mul_right (show 0 < m.tile_size.1 by omega)).mpr hmlt
    rw [if_pos hyeq]
    exact decide_eq_false (by omega)

/-- Membership in the generation domain. -/
theorem genPairs_mem (R C : Nat) (p : Nat × Nat) :
    p ∈ genPairs R C ↔ p.1 < R ∧ p.2 < C := by
  unfold genPairs
  constructor
  · intro hp
    obtain ⟨ty, hty, hp2⟩ := List.mem_flatMap.mp hp
    obtain ⟨tx, htx, heq⟩ := List.mem_map.mp hp2
    rw [← heq]
    exact ⟨List.mem_range.mp hty, List.mem_range.mp htx⟩
  · intro h
    refine List.mem_flatMap.mpr ⟨p.1, List.mem_range.mpr h.1, ?_⟩
    exact List.mem_map.mpr ⟨p.2, List.mem_range.mpr h.2, rfl⟩

/-- The generation domain is enumerated in strictly ascending grid index. -/
theorem genPairs_inc (R C : Nat) :
    (genPairs R C).Pairwise (fun p q => p.1 * C + p.2 < q.1 * C + q.2) := by
  unfold genPairs
  rw [List.pairwise_flatMap]
  constructor
  · intro ty _
    rw [List.pairwise_map]
    refine (List.pairwise_lt_range C).imp ?_
    intro a b hab
    dsimp only
    omega
  · refine (List.pairwise_lt_range R).imp ?_
    intro ty ty' hlt x hx y hy
    obtain ⟨tx, htx, hxeq⟩ := List.mem_map.mp hx
    obtain ⟨tx', htx', hyeq⟩ := List.mem_map.mp hy
    rw [← hxeq, ← hyeq]
    have htxC : tx < C := List.mem_range.mp htx
    calc ty * C + tx < ty * C + C := by omega
    _ = (ty + 1) * C := by ring
    _ ≤ ty' * C := Nat.mul_le_mul_right C (by omega)
    _ ≤ ty' * C + tx' := Nat.le_add_right _ _

/-- The grid index of an in-range cell is within the tile array. -/
theorem encode_lt (W H ty tx : Nat) (hty : ty < H) (htx : tx < W) :
    ty * W + tx < W * H := by
  calc ty * W + tx < ty * W + W := by omega
  _ = (ty + 1) * W := by ring
  _ ≤ H * W := Nat.mul_le_mul_right W (by omega)
  _ = W * H := Nat.mul_comm H W

/-- `getD` on a mapped range. -/
theorem getD_map_range {α : Type _} (n i : Nat) (f : Nat → α) (d : α) :
    ((List.range n).map f).getD i d = if i < n then f i else d := by
  by_cases h : i < n
  · rw [if_pos h, List.getD_eq_getElem?_getD, List.getElem?_map, List.getElem?_range h]
    rfl
  · rw [if_neg h, List.getD_eq_getElem?_getD]
    rw [List.getElem?_eq_none (by simp; omega)]
    rfl

/-- `getD` of an in-range index is a member. -/
theorem getD_mem_of_lt {α : Type _} (l : List α) (i : Nat) (d : α) (h : i < l.length) :
    l.getD i d ∈ l := by
  rw [List.getD_eq_getElem?_getD, List.getElem?_eq_getElem h]
  exact List.getElem_mem h

/-- `gen_tiles` in background mode (non-Hilbert, rendering): the render
queues are the chunked queues of `bgLoop` padded to `num` entries. -/
theorem gen_tiles_bg_render (m : TileManager)
    (hho : ¬ m.tile_order = TileOrder.TILE_HILBERT_SPIRAL) (hod : m.only_denoise = false) :
    (gen_tiles m false).2.render_tiles
      = (List.range (genNum m)).map (fun d =>
          (bgLoop m (genTileW m) (tilesPerDevice m)
            (fun dev ty tx => mkGenTile m (genTileW m) (genTileH m) 0 (genImageH m) dev ty tx)
            (genPairs (genTileH m) (genTileW m))
            (List.replicate (genTileW m * genTileH m) defaultTile) [] 0).2.getD d []) := by
  unfold gen_tiles
  dsimp only
  rw [if_neg hho]
  rw [if_neg (show ¬ m.only_denoise = true by simp [hod])]
  rfl

/-- `gen_tiles` in background mode: the tile array is `bgLoop`'s. -/
theorem gen_tiles_bg_tiles (m : TileManager)
    (hho : ¬ m.tile_order = TileOrder.TILE_HILBERT_SPIRAL) :
    (gen_tiles m false).2.tiles
      = (bgLoop m (genTileW m) (tilesPerDevice m)
          (fun dev ty tx => mkGenTile m (genTileW m) (genTileH m) 0 (genImageH m) dev ty tx)
          (genPairs (genTileH m) (genTileW m))
          (List.replicate (genTileW m * genTileH m) defaultTile) [] 0).1 := by
  unfold gen_tiles
  dsimp only
  rw [if_neg hho]
  rfl

/-- **C4** (amended). In a background pass under a non-Hilbert order, each
render queue that is filled to `tiles_per_device` is sorted by the
comparator of the configured order (a `TILE_BOTTOM_TO_TOP` queue is kept
in generation order, which that comparator already accepts); but the final
partial chunk is never sorted: it is left in generation order (ascending
grid index). -/
theorem claim_C4_amended (m : TileManager)
    (hho : ¬ m.tile_order = TileOrder.TILE_HILBERT_SPIRAL)
    (hod : m.only_denoise = false)
    (h1 : 1 ≤ m.tile_size.1) (h2 : 1 ≤ m.tile_size.2) (d : Nat) :
    sortedQueueSpec m d := by
  unfold sortedQueueSpec
  dsimp only
  obtain ⟨-, -, sq⟩ := bgLoop_spec m (genTileW m) (tilesPerDevice m)
    (fun dev ty tx => mkGenTile m (genTileW m) (genTileH m) 0 (genImageH m) dev ty tx)
    (bgPure m)
    (fun dev ty tx htx => mkGenTile_geom m h1 dev ty tx htx)
    (genPairs (genTileH m) (genTileW m))
    (List.replicate (genTileW m * genTileH m) defaultTile) [] 0
    (fun p hp => by
      obtain ⟨hp1, hp2⟩ := (genPairs_mem _ _ p).mp hp
      refine ⟨hp2, ?_⟩
      rw [List.length_replicate]
      exact encode_lt _ _ _ _ hp1 hp2)
    (fun i hi => absurd hi (List.not_mem_nil i))
    List.Pairwise.nil
    (fun i hi _ _ => absurd hi (List.not_mem_nil i))
    (genPairs_inc _ _)
    (by
      rcases Nat.eq_zero_or_pos (tilesPerDevice m) with h0 | hpos
      · exact Or.inl h0
      · exact Or.inr (by simp only [List.length_nil]; exact hpos))
  rw [gen_tiles_bg_render m hho hod, gen_tiles_bg_tiles m hho, getD_map_range]
  set B := bgLoop m (genTileW m) (tilesPerDevice m)
    (fun dev ty tx => mkGenTile m (genTileW m) (genTileH m) 0 (genImageH m) dev ty tx)
    (genPairs (genTileH m) (genTileW m))
    (List.replicate (genTileW m * genTileH m) defaultTile) [] 0 with hB
  by_cases hd : d < genNum m
  · rw [if_pos hd]
    rcases Nat.lt_or_ge d B.2.length with hin | hout
    · have hqmem : B.2.getD d [] ∈ B.2 := getD_mem_of_lt _ _ _ hin
      obtain ⟨c1, c2, c3⟩ := sq (B.2.getD d []) hqmem
      have hconv : ∀ a ∈ B.2.getD d [], ∀ b ∈ B.2.getD d [],
          tileComparator m.tile_order (genCenter m) B.1 b a
            = tileCompare m.tile_order (genCenter m) (bgPure m b) (bgPure m a) := by
        intro a ha b hb
        unfold tileComparator
        exact tileCompare_congr _ _ _ _ _ _ (c1 b hb).2 (c1 a ha).2
      refine ⟨?_, ?_, fun hne => c3 (Or.inr hne)⟩
      · intro hlen
        by_cases hbtt : m.tile_order = TileOrder.TILE_BOTTOM_TO_TOP
        · have hasc := c3 (Or.inl hbtt)
          refine hasc.imp_of_mem ?_
          intro a b ha hb hab
          rw [hconv a ha b hb, hbtt]
          exact bgPure_btt_lt m h1 h2 a b hab
        · have hs := c2 hlen hbtt
          refine hs.imp_of_mem ?_
          intro a b ha hb hab
          rw [hconv a ha b hb]
          exact hab
      · intro hbtt
        have hasc := c3 (Or.inl hbtt)
        refine hasc.imp_of_mem ?_
        intro a b ha hb hab
        rw [hconv a ha b hb, hbtt]
        exact bgPure_btt_lt m h1 h2 a b hab
    · have hqe : B.2.getD d [] = [] := by
        rw [List.getD_eq_getElem?_getD, List.getElem?_eq_none hout]
        rfl
      rw [hqe]
      exact ⟨fun _ => List.Pairwise.nil, fun _ => List.Pairwise.nil,
        fun _ => List.Pairwise.nil⟩
  · rw [if_neg hd]
    exact ⟨fun _ => List.Pairwise.nil, fun _ => List.Pairwise.nil,
      fun _ => List.Pairwise.nil⟩

/-- **C4**, refuting the unqualified claim: in the 160×32 background run
with 32×32 tiles over two devices under `TILE_RIGHT_TO_LEFT`, device 1's
queue is the partial chunk `[3, 4]` in generation order, although the
right-to-left comparator orders tile 4 (x = 128) before tile 3 (x = 96):
the last chunk is handed out unsorted. -/
theorem claim_C4_counterexample :
    mgrBgPartialTiles.state.render_tiles.getD 1 [] = [3, 4]
      ∧ tileComparator TileOrder.TILE_RIGHT_TO_LEFT (genCenter mgrBgPartialTiles)
          mgrBgPartialTiles.state.tiles 4 3 = true := by
  decide

/-- Witness for the amended C4 at the same configuration. -/
theorem claim_C4_witness :
    (¬ mgrBgPartial.tile_order = TileOrder.TILE_HILBERT_SPIRAL)
      ∧ mgrBgPartial.only_denoise = false
      ∧ 1 ≤ mgrBgPartial.tile_size.1 ∧ 1 ≤ mgrBgPartial.tile_size.2
      ∧ sortedQueueSpec mgrBgPartial 0 :=
  ⟨by decide, by decide, by decide, by decide,
   claim_C4_amended mgrBgPartial (by decide) (by decide) (by decide) (by decide) 0⟩

end Cycles
